import Mathlib

/-!
Verification of the legacy-dump importer (`src/migrate_old_db.py`) and the
author-name heuristic classifier (`src/models.py`) of the publisher_site
repository.  All Python strings are embedded as `List Char`; Python's
dynamically typed parsed values are embedded as the inductive type `Val`
(None / int / float / str).  Code that can raise a Python exception is
embedded in `Except Unit`.

Modelling notes, applying throughout:
* Python's `str.strip`, `\s`, `\d`, `str.isupper`, `str.lower`, `str.isalnum`
  are Unicode-aware; they are modelled here on the character repertoire the
  repository's data and the claims exercise (ASCII plus the Cyrillic block
  А-Я/а-я/Ё/ё and the explicit superscript digits named in the source).
* `int(...)` / `float(...)` literal acceptance is modelled without the
  digit-grouping-underscore and inf/nan forms, which the claims never touch.
* A Python `float` value is carried as its accepted source literal
  (`Val.float lit`); no claim performs float arithmetic, and two equal
  literals denote equal floats, which is all the claims use.
-/

namespace PubSite

/-- Whitespace as in Python's `str.strip()` / regex `\s` (ASCII repertoire). -/
def isWs (c : Char) : Bool :=
  c = ' ' ∨ c = '\t' ∨ c = '\n' ∨ c = '\r' ∨ c = '\u000b' ∨ c = '\u000c'

/-- Drop a trailing run of characters satisfying `p` (via reversal). -/
def dropTrailing (p : Char → Bool) (l : List Char) : List Char :=
  (l.reverse.dropWhile p).reverse

/-- Python `str.strip()`: remove leading and trailing whitespace. -/
def pyStrip (l : List Char) : List Char :=
  dropTrailing isWs (l.dropWhile isWs)

/-- Boolean list-prefix test (used for substring search and marker search). -/
def isPre : List Char → List Char → Bool
  | [], _ => true
  | _ :: _, [] => false
  | a :: as, b :: bs => if a = b then isPre as bs else false

/-- Python `pat in s` substring containment. -/
def containsSub (pat : List Char) : List Char → Bool
  | [] => isPre pat []
  | c :: r => if isPre pat (c :: r) then true else containsSub pat r

/-- Python `s.split(",")`: split at every comma, keeping empty pieces. -/
def splitCommaAux (cur : List Char) : List Char → List (List Char)
  | [] => [cur.reverse]
  | c :: r => if c = ',' then cur.reverse :: splitCommaAux [] r else splitCommaAux (c :: cur) r

/-- Python `s.split(",")`. -/
def splitComma (l : List Char) : List (List Char) := splitCommaAux [] l

/-- Python `s.split()` (no argument): split on whitespace runs, no empty parts. -/
def splitWsAux (cur : List Char) : List Char → List (List Char)
  | [] => if cur = [] then [] else [cur.reverse]
  | c :: r =>
    if isWs c then
      if cur = [] then splitWsAux [] r else cur.reverse :: splitWsAux [] r
    else splitWsAux (c :: cur) r

/-- Python `s.split()` with no argument. -/
def splitWs (l : List Char) : List (List Char) := splitWsAux [] l

/-- Python `s.replace(ab, c)` for a two-character pattern `ab` and a
one-character replacement `c` (leftmost, non-overlapping), which is the shape
of every `str.replace` in `clean_val`. -/
def replace2 (a b c : Char) : List Char → List Char
  | x :: y :: r =>
    if x = a ∧ y = b then c :: replace2 a b c r
    else x :: replace2 a b c (y :: r)
  | l => l

/-- Python `s.replace(a, b)` for single characters (used for `'–'`/`'—'`/`' '`). -/
def replaceChar (a b : Char) (l : List Char) : List Char :=
  l.map fun c => if c = a then b else c

def htmlUnescapeFuel : Nat → List Char → List Char
  | _, [] => []
  | 0, l => l
  | fuel + 1, c :: r =>
    if c = '&' then
      if isPre "amp;".toList r then '&' :: htmlUnescapeFuel fuel (r.drop 4)
      else if isPre "lt;".toList r then '<' :: htmlUnescapeFuel fuel (r.drop 3)
      else if isPre "gt;".toList r then '>' :: htmlUnescapeFuel fuel (r.drop 3)
      else if isPre "quot;".toList r then '"' :: htmlUnescapeFuel fuel (r.drop 5)
      else if isPre "#39;".toList r then '\'' :: htmlUnescapeFuel fuel (r.drop 4)
      else if isPre "nbsp;".toList r then '\u00A0' :: htmlUnescapeFuel fuel (r.drop 5)
      else c :: htmlUnescapeFuel fuel r
    else c :: htmlUnescapeFuel fuel r

/-- Models `html.unescape` over the semicolon-terminated core entities; on
ampersand-free text (all that the claims rely on) it is the identity, as in
Python.  The fuel argument only drives structural recursion; it never runs
out, since each step consumes at least one character. -/
def htmlUnescape (l : List Char) : List Char := htmlUnescapeFuel l.length l

/-- Python `str.lower()` on the ASCII and Cyrillic repertoire. -/
def pyLowerChar (c : Char) : Char :=
  if 'A' ≤ c ∧ c ≤ 'Z' then Char.ofNat (c.toNat + 32)
  else if 'А' ≤ c ∧ c ≤ 'Я' then Char.ofNat (c.toNat + 32)
  else if c = 'Ё' then 'ё'
  else c

/-- Python `str.lower()` on a whole string. -/
def pyLower (l : List Char) : List Char := l.map pyLowerChar

/-- Python `ch.isupper()` on the ASCII and Cyrillic repertoire. -/
def pyIsUpper (c : Char) : Bool :=
  ('A' ≤ c ∧ c ≤ 'Z') ∨ ('А' ≤ c ∧ c ≤ 'Я') ∨ c = 'Ё'

/-- Python `ch.isalnum()` on the ASCII and Cyrillic repertoire. -/
def pyIsAlnum (c : Char) : Bool :=
  c.isDigit ∨ ('a' ≤ c ∧ c ≤ 'z') ∨ ('A' ≤ c ∧ c ≤ 'Z') ∨
  ('а' ≤ c ∧ c ≤ 'я') ∨ ('А' ≤ c ∧ c ≤ 'Я') ∨ c = 'ё' ∨ c = 'Ё'

/-- Numeric value of a (nonempty, all-digit) string of decimal digits. -/
def natOfDigits (l : List Char) : Nat :=
  l.foldl (fun a c => 10 * a + (c.toNat - 48)) 0

/-- Decimal representation of an integer, as Python's `str` produces it. -/
def intRepr (n : Int) : List Char :=
  if n < 0 then '-' :: Nat.toDigits 10 n.natAbs else Nat.toDigits 10 n.toNat

/-- Remove one leading `+`/`-` sign character, if present. -/
def stripSign (l : List Char) : List Char :=
  match l with
  | c :: r => if c = '+' ∨ c = '-' then r else c :: r
  | [] => []

/-- Python `int(s)` on a string: optional surrounding whitespace, optional
sign, then a nonempty digit run (digit-grouping underscores not modelled). -/
def pyIntParse (l : List Char) : Option Int :=
  let t := pyStrip l
  let d := stripSign t
  if d ≠ [] ∧ d.all Char.isDigit then
    some (if t.head? = some '-' then -(natOfDigits d : Int) else (natOfDigits d : Int))
  else none

/-- Exponent part of a Python float literal: empty, or `e`/`E`, optional sign,
nonempty digits. -/
def floatExpPart (l : List Char) : Bool :=
  if l = [] then true
  else if l.head? = some 'e' ∨ l.head? = some 'E' then
    (let d := stripSign l.tail
     d ≠ [] ∧ d.all Char.isDigit)
  else false

/-- Mantissa (and optional exponent) of a Python float literal. -/
def floatMantissa (l : List Char) : Bool :=
  let d1 := l.takeWhile Char.isDigit
  let r1 := l.dropWhile Char.isDigit
  if r1.head? = some '.' then
    (let d2 := r1.tail.takeWhile Char.isDigit
     let r3 := r1.tail.dropWhile Char.isDigit
     (d1 ≠ [] ∨ d2 ≠ []) ∧ floatExpPart r3)
  else d1 ≠ [] ∧ floatExpPart r1

/-- Python `float(s)` literal acceptance (inf/nan and underscores not
modelled; the claims never exercise them). -/
def pyFloatOk (l : List Char) : Bool :=
  floatMantissa (stripSign (pyStrip l))

/-- A float literal denotes `0.0` iff every mantissa digit is `0`. -/
def floatLitZero (l : List Char) : Bool :=
  (l.takeWhile fun c => ¬(c = 'e' ∨ c = 'E')).all fun c => ¬c.isDigit ∨ c = '0'

/-- A parsed legacy value after `clean_val`: Python None, int, float or str.
A float is carried as its accepted source literal (see the header note). -/
inductive Val where
  | none : Val
  | int : Int → Val
  | float : List Char → Val
  | str : List Char → Val
deriving DecidableEq, Repr

/-- Python truthiness of a `Val` (`if not x`-style tests in the importer). -/
def truthy : Val → Bool
  | .none => false
  | .int n => n ≠ 0
  | .float lit => ¬floatLitZero lit
  | .str s => s ≠ []

/-- Python `str(x)` of a `Val` (a float prints as its literal, see header). -/
def pyStr : Val → List Char
  | .none => "None".toList
  | .int n => intRepr n
  | .float lit => lit
  | .str s => s

/-- The MySQL-escape unescaping and HTML-entity decoding tail of `clean_val`
(migrate_old_db.py lines 149-152): `\\'`→`'`, `\\"`→`"`, `\\n`, `\\r`,
`\\\\`→`\\`, then `html.unescape`. -/
def unescapeStr (val : List Char) : List Char :=
  htmlUnescape
    (replace2 '\\' '\\' '\\'
      (replace2 '\\' 'r' '\r'
        (replace2 '\\' 'n' '\n'
          (replace2 '\\' '"' '"'
            (replace2 '\\' '\'' '\'' val)))))

/-- Embeds `clean_val` (migrate_old_db.py lines 137-153): `NULL`/empty → None,
a token with a `.` that `float` accepts → float, otherwise an `int`-parseable
token → int, otherwise unescape and HTML-decode, staying a string. -/
def clean_val (val : List Char) : Val :=
  if val = "NULL".toList ∨ val = [] then .none
  else if '.' ∈ val then
    if pyFloatOk val then .float val else .str (unescapeStr val)
  else
    match pyIntParse val with
    | some n => .int n
    | Option.none => .str (unescapeStr val)

/-- State of the hand-written character scanner of `parse_values`
(migrate_old_db.py lines 60-65): accumulated rows, the row and value being
built, the in-string and escape flags, and the parenthesis depth. -/
structure ScanState where
  rows : List (List (List Char))
  currentRow : List (List Char)
  currentVal : List Char
  inString : Bool
  escapeNext : Bool
  parenDepth : Int
deriving Repr

/-- The character scan loop of `parse_values` (migrate_old_db.py lines 67-133),
one constructor branch per `if`/`elif` of the Python loop, in source order;
the doubled-quote case consumes two characters, as the Python index
manipulation does. -/
def scanAux (st : ScanState) : List Char → List (List (List Char))
  | [] => st.rows
  | c :: cs =>
    if st.escapeNext then
      scanAux { st with currentVal := st.currentVal ++ [c], escapeNext := false } cs
    else if c = '\\' ∧ st.inString then
      scanAux { st with escapeNext := true, currentVal := st.currentVal ++ [c] } cs
    else if c = '\'' ∧ ¬st.inString then
      scanAux { st with inString := true } cs
    else if c = '\'' ∧ st.inString then
      match cs with
      | '\'' :: cs2 => scanAux { st with currentVal := st.currentVal ++ ['\''] } cs2
      | cs' => scanAux { st with inString := false } cs'
    else if st.inString then
      scanAux { st with currentVal := st.currentVal ++ [c] } cs
    else if c = '(' then
      if st.parenDepth + 1 = 1 then
        scanAux { st with parenDepth := st.parenDepth + 1, currentVal := [] } cs
      else scanAux { st with parenDepth := st.parenDepth + 1 } cs
    else if c = ')' then
      if st.parenDepth - 1 = 0 then
        scanAux
          { st with
            parenDepth := st.parenDepth - 1
            rows := st.rows ++ [st.currentRow ++ [pyStrip st.currentVal]]
            currentRow := []
            currentVal := [] } cs
      else scanAux { st with parenDepth := st.parenDepth - 1 } cs
    else if c = ',' ∧ st.parenDepth = 1 then
      scanAux
        { st with
          currentRow := st.currentRow ++ [pyStrip st.currentVal]
          currentVal := [] } cs
    else if c = ',' ∧ st.parenDepth = 0 then
      scanAux st cs
    else
      scanAux { st with currentVal := st.currentVal ++ [c] } cs

/-- The `re.search(r"VALUES\s*", line)` step of `parse_values`: find the
leftmost occurrence of `VALUES`, and return the text after it and after the
greedily matched whitespace run. -/
def afterValues : List Char → Option (List Char)
  | [] => none
  | c :: r =>
    if isPre "VALUES".toList (c :: r) then some (((c :: r).drop 6).dropWhile isWs)
    else afterValues r

/-- Embeds `parse_values` (migrate_old_db.py lines 47-134): locate the
`VALUES` keyword, strip trailing whitespace and semicolons, then run the
character scanner from the empty initial state. -/
def parse_values (line : List Char) : List (List (List Char)) :=
  match afterValues line with
  | none => []
  | some data =>
    scanAux ⟨[], [], [], false, false, 0⟩
      (dropTrailing (fun c => c = ';') (dropTrailing isWs data))

/-- Fields of a parsed row after `clean_val` (used by the claims to speak
about a whole parsed-and-normalized INSERT line). -/
def rowVals (line : List Char) : List (List Val) :=
  (parse_values line).map (List.map clean_val)

/-- The tag-removal pass of `strip_html`: `re.sub(r"<[^>]+>", " ", text)`.
The accumulator holds (reversed) the characters seen since an as-yet-unclosed
`<`; a `>` closing a nonempty span emits a single space, a bare `<>` or an
unterminated `<...` is kept verbatim, matching the regex's leftmost-match
semantics. -/
def rmTagsAux : Option (List Char) → List Char → List Char
  | Option.none, [] => []
  | Option.none, c :: r =>
    if c = '<' then rmTagsAux (some [c]) r else c :: rmTagsAux Option.none r
  | some acc, [] => acc.reverse
  | some acc, c :: r =>
    if c = '>' then
      if 2 ≤ acc.length then ' ' :: rmTagsAux Option.none r
      else acc.reverse ++ '>' :: rmTagsAux Option.none r
    else rmTagsAux (some (c :: acc)) r

/-- The whitespace-collapsing pass of `strip_html`:
`re.sub(r"\s+", " ", text)` (every whitespace run becomes one space). -/
def collapseWsAux (prevWs : Bool) : List Char → List Char
  | [] => []
  | c :: r =>
    if isWs c then
      if prevWs then collapseWsAux true r else ' ' :: collapseWsAux true r
    else c :: collapseWsAux false r

/-- Embeds `strip_html` (migrate_old_db.py lines 156-162): falsy text is
returned unchanged, otherwise HTML tags become spaces, whitespace runs are
collapsed and the ends are stripped. -/
def strip_html (text : List Char) : List Char :=
  if text = [] then text
  else pyStrip (collapseWsAux false (rmTagsAux Option.none text))

/-- The per-character transliteration table of `slugify`
(migrate_old_db.py lines 179-185). -/
def translit (c : Char) : Option (List Char) :=
  if c = 'а' then some ['a'] else if c = 'б' then some ['b']
  else if c = 'в' then some ['v'] else if c = 'г' then some ['g']
  else if c = 'д' then some ['d'] else if c = 'е' then some ['e']
  else if c = 'ё' then some ['y', 'o'] else if c = 'ж' then some ['z', 'h']
  else if c = 'з' then some ['z'] else if c = 'и' then some ['i']
  else if c = 'й' then some ['y'] else if c = 'к' then some ['k']
  else if c = 'л' then some ['l'] else if c = 'м' then some ['m']
  else if c = 'н' then some ['n'] else if c = 'о' then some ['o']
  else if c = 'п' then some ['p'] else if c = 'р' then some ['r']
  else if c = 'с' then some ['s'] else if c = 'т' then some ['t']
  else if c = 'у' then some ['u'] else if c = 'ф' then some ['f']
  else if c = 'х' then some ['k', 'h'] else if c = 'ц' then some ['t', 's']
  else if c = 'ч' then some ['c', 'h'] else if c = 'ш' then some ['s', 'h']
  else if c = 'щ' then some ['s', 'h', 'c', 'h'] else if c = 'ъ' then some []
  else if c = 'ы' then some ['y'] else if c = 'ь' then some []
  else if c = 'э' then some ['e'] else if c = 'ю' then some ['y', 'u']
  else if c = 'я' then some ['y', 'a'] else none

/-- Collapse runs of `-` to a single `-` (`re.sub(r"-+", "-", ...)`). -/
def collapseDashAux (prevDash : Bool) : List Char → List Char
  | [] => []
  | c :: r =>
    if c = '-' then
      if prevDash then collapseDashAux true r else '-' :: collapseDashAux true r
    else c :: collapseDashAux false r

/-- Embeds `slugify` (migrate_old_db.py lines 177-196): lowercase and strip,
transliterate characters in the table, keep alphanumerics, map space/dash/
underscore to `-`, drop the rest, collapse dash runs, strip dashes, default
to `journal`. -/
def slugify (text : List Char) : List Char :=
  let t := pyStrip (pyLower text)
  let result := t.flatMap fun ch =>
    match translit ch with
    | some s => s
    | Option.none =>
      if pyIsAlnum ch then [ch]
      else if ch = ' ' ∨ ch = '-' ∨ ch = '_' then ['-'] else []
  let slug := dropTrailing (fun c => c = '-')
    ((collapseDashAux false result).dropWhile fun c => c = '-')
  if slug = [] then "journal".toList else slug

/-- Embeds the core of `parse_pages` (migrate_old_db.py lines 199-210) on the
already-stringified, nonempty pages text: strip, normalize en-dash and em-dash to `-`, then match `(\d+)\s*[-]\s*(\d+)` and fall back to `(\d+)`. -/
def parsePagesCore (s : List Char) : Option Nat × Option Nat :=
  let t := (pyStrip s).map fun c => if c = '–' ∨ c = '—' then '-' else c
  let d1 := t.takeWhile Char.isDigit
  if d1 = [] then (none, none)
  else
    let r1 := (t.dropWhile Char.isDigit).dropWhile isWs
    match r1 with
    | '-' :: r2 =>
      let d2 := (r2.dropWhile isWs).takeWhile Char.isDigit
      if d2 = [] then (some (natOfDigits d1), none)
      else (some (natOfDigits d1), some (natOfDigits d2))
    | _ => (some (natOfDigits d1), none)

/-- Embeds `parse_pages` on a parsed legacy value: a falsy value gives
`(None, None)`, otherwise the value is stringified and parsed. -/
def parse_pages (v : Val) : Option Nat × Option Nat :=
  if ¬truthy v then (none, none) else parsePagesCore (pyStr v)

/-- Character class `[А-ЯЁ]` of the name-shape patterns. -/
def cyrUpper (c : Char) : Bool := ('А' ≤ c ∧ c ≤ 'Я') ∨ c = 'Ё'

/-- Character class `[а-яё]` of the name-shape patterns. -/
def cyrLower (c : Char) : Bool := ('а' ≤ c ∧ c ≤ 'я') ∨ c = 'ё'

/-- Character class `[A-Z]` of the name-shape patterns. -/
def latUpper (c : Char) : Bool := 'A' ≤ c ∧ c ≤ 'Z'

/-- Character class `[a-z]` of the name-shape patterns. -/
def latLower (c : Char) : Bool := 'a' ≤ c ∧ c ≤ 'z'

/-- Regex-atom step: consume exactly one character of class `p`
(the possible remainders after the atom). -/
def stepReq (p : Char → Bool) : List Char → List (List Char)
  | [] => []
  | c :: r => if p c then [r] else []

/-- Remainders after consuming zero or more characters of class `p`. -/
def starTails (p : Char → Bool) : List Char → List (List Char)
  | [] => [[]]
  | c :: r => (c :: r) :: (if p c then starTails p r else [])

/-- Lift a one-state step over a set of match states. -/
def reqS (p : Char → Bool) (ls : List (List Char)) : List (List Char) :=
  ls.flatMap (stepReq p)

/-- Regex `X+` over a set of match states. -/
def plusS (p : Char → Bool) (ls : List (List Char)) : List (List Char) :=
  ls.flatMap fun l => (stepReq p l).flatMap (starTails p)

/-- Regex `X?` over a set of match states. -/
def optS (p : Char → Bool) (ls : List (List Char)) : List (List Char) :=
  ls.flatMap fun l => l :: stepReq p l

/-- Does a match of the pattern start at the head of the text (existence
semantics — `re.search` succeeds iff some starting position admits a match)? -/
def anySuffix (f : List Char → Bool) : List Char → Bool
  | [] => f []
  | c :: r => f (c :: r) || anySuffix f r

/-- Pattern `[А-ЯЁ][а-яё]+\s+[А-ЯЁ]\.` anchored at the head. -/
def pat1At (l : List Char) : Bool :=
  reqS (fun c => c = '.') (reqS cyrUpper (plusS isWs (plusS cyrLower (reqS cyrUpper [l])))) ≠ []

/-- Pattern `[А-ЯЁ]\.\s?[А-ЯЁ]?\.?\s?[А-ЯЁ][а-яё]+` anchored at the head. -/
def pat2At (l : List Char) : Bool :=
  reqS cyrLower (reqS cyrUpper (optS isWs (optS (fun c => c = '.')
    (optS cyrUpper (optS isWs (reqS (fun c => c = '.') (reqS cyrUpper [l]))))))) ≠ []

/-- Pattern `[A-Z][a-z]+\s+[A-Z]\.` anchored at the head. -/
def pat3At (l : List Char) : Bool :=
  reqS (fun c => c = '.') (reqS latUpper (plusS isWs (plusS latLower (reqS latUpper [l])))) ≠ []

/-- Pattern `[A-Z]\.\s?[A-Z]?\.?\s?[A-Z][a-z]+` anchored at the head. -/
def pat4At (l : List Char) : Bool :=
  reqS latLower (reqS latUpper (optS isWs (optS (fun c => c = '.')
    (optS latUpper (optS isWs (reqS (fun c => c = '.') (reqS latUpper [l]))))))) ≠ []

/-- The denylist of institutional/contact noise substrings of
`Article._looks_like_name` (models.py lines 122-128), in source order. -/
def denyWords : List (List Char) :=
  ["кафедр", "универси", "институт", "факультет", "лаборатор",
   "отдел", "e-mail", "email", "mail.ru", "yandex",
   "сотрудник", "начальник", "директор", "заведующ",
   "академи", "доцент", "профессор",
   "органической", "технической", "государствен"].map String.toList

/-- Embeds `Article._looks_like_name` (models.py lines 114-143) on a string:
strip; reject empty or longer than 40; reject on a denylist substring of the
lowercased text; accept on any of the four name-shape patterns; finally
accept 2-3 words of total length at most 25 all starting uppercase. -/
def looksLikeNameStr (text : List Char) : Bool :=
  let t := pyStrip text
  if t = [] ∨ 40 < t.length then false
  else if denyWords.any (fun w => containsSub w (pyLower t)) then false
  else if anySuffix pat1At t then true
  else if anySuffix pat2At t then true
  else if anySuffix pat3At t then true
  else if anySuffix pat4At t then true
  else
    let words := splitWs t
    if (words.length = 2 ∨ words.length = 3) ∧ t.length ≤ 25 ∧
       words.all (fun w => match w with | c :: _ => pyIsUpper c | [] => true) then true
    else false

/-- Embeds `Article._looks_like_name` on an arbitrary Python value: a string
is classified, any non-string (e.g. `None`) raises `AttributeError` at
`text.strip()`, embedded as `Except.error`. -/
def looks_like_name : Val → Except Unit Bool
  | .str s => .ok (looksLikeNameStr s)
  | _ => .error ()

/-- The trailing-marker class of `Article._clean_name`
(models.py line 150): `[\s\d\−\–⁰¹²³⁴⁵⁶⁷⁸⁹]` — whitespace, digits, Unicode
minus `−`, en-dash `–`, and superscript digits. -/
def isMarker (c : Char) : Bool :=
  isWs c ∨ c.isDigit ∨ c = '−' ∨ c = '–' ∨ c = '⁰' ∨ c = '¹' ∨ c = '²' ∨
  c = '³' ∨ c = '⁴' ∨ c = '⁵' ∨ c = '⁶' ∨ c = '⁷' ∨ c = '⁸' ∨ c = '⁹'

/-- Embeds `Article._clean_name` (models.py lines 145-150): remove the
trailing run of marker characters (the regex `[...]+$`; since the class
contains all whitespace, the `$`-before-final-newline subtlety of `re.sub`
coincides with plain end-of-string here), then `strip()`. -/
def clean_name (text : List Char) : List Char :=
  pyStrip (dropTrailing isMarker text)

/-- Python `', '.join(names)`. -/
def joinCS : List (List Char) → List Char
  | [] => []
  | [x] => x
  | x :: xs => x ++ ", ".toList ++ joinCS xs

/-- Embeds `Article.authors_str` (models.py lines 152-156) over the stored
author `full_name` strings in their stored relationship order (the `authors`
relationship is ordered by `ArticleAuthor.order`): keep the names passing
`looks_like_name`, clean each, join with `", "`, empty if none pass. -/
def authors_str (authors : List (List Char)) : List Char :=
  let names := (authors.filter looksLikeNameStr).map clean_name
  if names = [] then [] else joinCS names

/-- A Python dict with `Val` keys, as an insertion-ordered association list. -/
def Dict := List (Val × Val)

/-- Python `d[k]`-style lookup returning `None` when absent (`d.get(k)`). -/
def dictGet : List (Val × Val) → Val → Option Val
  | [], _ => none
  | (a, b) :: r, k => if a = k then some b else dictGet r k

/-- Python `d[k] = v`: overwrite the existing binding, else append. -/
def dictSet : List (Val × Val) → Val → Val → List (Val × Val)
  | [], k, v => [(k, v)]
  | (a, b) :: r, k, v =>
    if a = k then (k, v) :: r else (a, b) :: dictSet r k v

/-- The section-to-issue map loop of `run_migration`
(migrate_old_db.py lines 241-246), one step per legacy section row:
`clean_val` the first two fields and store `razd_id -> nomer_id` when both
are not None; a row without two fields raises `IndexError`. -/
def razdFold (m : List (Val × Val)) : List (List (List Char)) → Except Unit (List (Val × Val))
  | [] => .ok m
  | row :: rest =>
    match row with
    | f0 :: f1 :: _ =>
      let razd_id := clean_val f0
      let nomer_id := clean_val f1
      razdFold (if razd_id ≠ Val.none ∧ nomer_id ≠ Val.none then dictSet m razd_id nomer_id else m) rest
    | _ => .error ()

/-- Builds `razd_to_nomer` from the parsed section rows, starting empty. -/
def buildRazdToNomer (rows : List (List (List Char))) : Except Unit (List (Val × Val)) :=
  razdFold [] rows

/-- The valid `(razd_id, nomer_id)` pairs a list of section rows contributes,
in row order (specification-side view of the same loop). -/
def razdPairs (rows : List (List (List Char))) : List (Val × Val) :=
  rows.filterMap fun row =>
    match row with
    | f0 :: f1 :: _ =>
      let razd_id := clean_val f0
      let nomer_id := clean_val f1
      if razd_id ≠ Val.none ∧ nomer_id ≠ Val.none then some (razd_id, nomer_id) else none
    | _ => none

/-- Later-entries-override lookup in a pair list: the value of the last pair
whose key matches (specification-side formulation of last-write-wins). -/
def lookupLast : List (Val × Val) → Val → Option Val
  | [], _ => none
  | (a, b) :: r, k =>
    match lookupLast r k with
    | some v => some v
    | Option.none => if a = k then some b else none

/-- Python `x if x else None` on a parsed value. -/
def optV (v : Val) : Option Val := if truthy v then some v else none

/-- Python `strip_html(x)` applied under an `if x:` guard: falsy values pass
through, a truthy string is stripped, a truthy non-string raises. -/
def stripHtmlVal (v : Val) : Except Unit Val :=
  if truthy v then
    match v with
    | .str s => .ok (.str (strip_html s))
    | _ => .error ()
  else .ok v

/-- The slug computation of the journal-creation loop of `run_migration`
(migrate_old_db.py lines 293-318) for one journal row, together with the row
processing that can raise before the `Journal` is constructed and flushed:
the name falls back through `journ_name`, `menu_name` and
`f"Journal {old_id}"`; the slug is the legacy `link` field when truthy, else
`slugify(name)`, then lowercased, stripped, with spaces replaced by `-`.
Before anything is persisted the loop also unconditionally evaluates
`clean_val(row[6])` (the description, HTML-stripped when truthy; the
1000-character truncation is pure) and `clean_val(row[14])` (the issn), and
`strip_html(clean_val(row[7]))` for the editorial board (its `len(row) > 7`
guard always holds once `row[14]` is reachable).  So a row with fewer than
15 fields raises `IndexError` at `row[6]`/`row[14]`, and a truthy non-string
name, slug, description or editorial board raises at `strip_html`/`.lower()`
— all embedded as `Except.error`: no slug is persisted for such a row. -/
def journal_slug (row : List (List Char)) : Except Unit (List Char) :=
  match row with
  | f0 :: f1 :: _ :: f3 :: f4 :: _ :: f6 :: f7 :: _ :: _ :: _ :: _ :: _ :: _ :: _ :: _ =>
    let old_id := clean_val f0
    let nameV :=
      if truthy (clean_val f3) then clean_val f3
      else if truthy (clean_val f1) then clean_val f1
      else .str ("Journal ".toList ++ pyStr old_id)
    match nameV with
    | .str s =>
      let name := strip_html s
      let slugV := clean_val f4
      match (if truthy slugV then slugV else .str (slugify name)) with
      | .str slug =>
        match stripHtmlVal (clean_val f6), stripHtmlVal (clean_val f7) with
        | .ok _, .ok _ => .ok (replaceChar ' ' '-' (pyStrip (pyLower slug)))
        | _, _ => .error ()
      | _ => .error ()
    | _ => .error ()
  | _ => .error ()

/-- The journal-creation loop of `run_migration` restricted to the slugs it
persists: for each row whose pre-flush processing succeeds (at least 15
fields, no non-string in a raising position), the computed slug is stored
as-is, in dump order; a raising row aborts the run with nothing persisted
for it (there is no collision check in the loop; uniqueness is left to the
database constraint). -/
def journal_slugs : List (List (List Char)) → Except Unit (List (List Char))
  | [] => .ok []
  | row :: rest =>
    match journal_slug row with
    | .ok s =>
      match journal_slugs rest with
      | .ok ss => .ok (s :: ss)
      | .error e => .error e
    | .error e => .error e

/-- A created `ArticleAuthor` row (models.py lines 171-181, as created by
migrate_old_db.py lines 446-452). -/
structure AuthorRec where
  full_name : List Char
  full_name_en : Option (List Char)
  order : Nat
deriving DecidableEq, Repr

/-- A created `Article` row together with its authors
(migrate_old_db.py lines 412-453). -/
structure ArticleRec where
  issue_id : Val
  title : Val
  title_en : Option Val
  abstract : Option Val
  abstract_en : Option Val
  keywords : Option Val
  keywords_en : Option Val
  doi : Option Val
  pages_from : Option Nat
  pages_to : Option Nat
  pdf_file : Option Val
  order : Nat
  authors : List AuthorRec
deriving DecidableEq, Repr

/-- Result of processing one legacy article row: skipped (counted, nothing
created) or imported with the created article and author rows. -/
inductive Outcome where
  | skipped : Outcome
  | imported : ArticleRec → Outcome
deriving DecidableEq, Repr

/-- The author-creation block of the article loop
(migrate_old_db.py lines 431-453): split the comma-joined names, strip each,
drop empties, index-align the English list, strip HTML per name, skip names
emptied by HTML stripping, number authors by their enumerate index.  Calling
`.split` on a truthy non-string raises. -/
def mkAuthors (authorsV authorsEngV : Val) : Except Unit (List AuthorRec) :=
  if ¬truthy authorsV then .ok []
  else
    match authorsV with
    | .str s =>
      let lst := ((splitComma s).map pyStrip).filter (· ≠ [])
      match (if ¬truthy authorsEngV then Except.ok []
             else match authorsEngV with
                  | .str e => Except.ok (((splitComma e).map pyStrip).filter (· ≠ []))
                  | _ => Except.error ()) with
      | .ok engs =>
        .ok (lst.enum.filterMap fun p =>
          let an := strip_html p.2
          if an = [] then none
          else some { full_name := an,
                      full_name_en := (engs.get? p.1).map strip_html,
                      order := p.1 })
      | .error e => .error e
    | _ => .error ()

/-- The body of the article-import loop of `run_migration`
(migrate_old_db.py lines 370-453) for one parsed article row, given the
section-to-issue map `rm` (`razd_to_nomer`), the issue map `im`
(`old_to_new_issue`) and the next article display order: the three skip
checks in source order (missing title, section id not in the map, resolved
legacy issue id not in the issue map), then the article and author
construction.  A row with fewer than six fields raises `IndexError`. -/
def article_outcome (rm im : List (Val × Val)) (ord : Nat) (row : List (List Char)) : Except Unit Outcome :=
  match row with
  | _ :: f1 :: f2 :: f3 :: f4 :: f5 :: _ =>
    let razd_id := clean_val f1
    let art_page := clean_val f2
    let authorsV := clean_val f3
    let art_name := clean_val f4
    let descript := clean_val f5
    let authorsEng := if 7 < row.length then clean_val (row.getD 7 []) else .none
    let artNameEng := if 8 < row.length then clean_val (row.getD 8 []) else .none
    let descriptEng := if 9 < row.length then clean_val (row.getD 9 []) else .none
    let keyword := if 11 < row.length then clean_val (row.getD 11 []) else .none
    let keywordEng := if 12 < row.length then clean_val (row.getD 12 []) else .none
    let doi := if 15 < row.length then clean_val (row.getD 15 []) else .none
    let pdfFile := if 23 < row.length then clean_val (row.getD 23 []) else .none
    if ¬truthy art_name then .ok .skipped
    else
      let nomer_id := (dictGet rm razd_id).getD Val.none
      if nomer_id = Val.none then .ok .skipped
      else
        let new_issue_id := (dictGet im nomer_id).getD Val.none
        if new_issue_id = Val.none then .ok .skipped
        else
          match stripHtmlVal art_name, stripHtmlVal artNameEng,
                stripHtmlVal descript, stripHtmlVal descriptEng,
                mkAuthors authorsV authorsEng with
          | .ok t, .ok te, .ok ab, .ok abe, .ok auths =>
            .ok (.imported
              { issue_id := new_issue_id
                title := t
                title_en := optV te
                abstract := optV ab
                abstract_en := optV abe
                keywords := optV keyword
                keywords_en := optV keywordEng
                doi := optV doi
                pages_from := (parse_pages art_page).1
                pages_to := (parse_pages art_page).2
                pdf_file := optV pdfFile
                order := ord
                authors := auths })
          | _, _, _, _, _ => .error ()
  | _ => .error ()

/-- The article-import loop with its run-level counters: fold the rows,
incrementing the skip counter on a skipped row and appending the created
article (whose display order is the number of articles created so far)
otherwise. -/
def runArticlesGo (rm im : List (Val × Val)) (skipped : Nat) (arts : List ArticleRec) :
    List (List (List Char)) → Except Unit (Nat × List ArticleRec)
  | [] => .ok (skipped, arts)
  | row :: rest =>
    match article_outcome rm im arts.length row with
    | .ok .skipped => runArticlesGo rm im (skipped + 1) arts rest
    | .ok (.imported a) => runArticlesGo rm im skipped (arts ++ [a]) rest
    | .error e => .error e

/-- The whole article-import loop of `run_migration`, returning the final
skip count and the created articles (each holding its author rows). -/
def runArticles (rm im : List (Val × Val)) (rows : List (List (List Char))) :
    Except Unit (Nat × List ArticleRec) :=
  runArticlesGo rm im 0 [] rows

/-- Does a (well-formed) article row trip one of the three skip conditions:
no truthy title, section id absent from the section-to-issue map, or the
resolved legacy issue id absent from the issue map? -/
def badRowB (rm im : List (Val × Val)) (row : List (List Char)) : Bool :=
  ¬truthy (clean_val (row.getD 4 [])) ∨
  (dictGet rm (clean_val (row.getD 1 []))).getD Val.none = Val.none ∨
  (dictGet im ((dictGet rm (clean_val (row.getD 1 []))).getD Val.none)).getD Val.none = Val.none

lemma head?_dropWhile_not {α} (p : α → Bool) (l : List α) {c : α}
    (h : (l.dropWhile p).head? = some c) : p c = false := by
  induction l with
  | nil => simp at h
  | cons a r ih =>
    by_cases hp : p a
    · rw [List.dropWhile_cons_of_pos hp] at h; exact ih h
    · rw [List.dropWhile_cons_of_neg hp] at h
      simp only [List.head?_cons, Option.some.injEq] at h
      subst h; simpa using hp

lemma dropWhile_eq_self_of_head {α} (p : α → Bool) (l : List α)
    (h : ∀ c, l.head? = some c → p c = false) : l.dropWhile p = l := by
  cases l with
  | nil => rfl
  | cons a r =>
    have := h a (by simp)
    rw [List.dropWhile_cons_of_neg (by simp [this])]

lemma getLast?_dropTrailing_not (p : Char → Bool) (l : List Char) {c : Char}
    (h : (dropTrailing p l).getLast? = some c) : p c = false := by
  unfold dropTrailing at h
  rw [List.getLast?_reverse] at h
  exact head?_dropWhile_not p l.reverse h

lemma dropTrailing_eq_self (p : Char → Bool) (l : List Char)
    (h : ∀ c, l.getLast? = some c → p c = false) : dropTrailing p l = l := by
  unfold dropTrailing
  rw [dropWhile_eq_self_of_head p l.reverse (by intro c hc; rw [List.head?_reverse] at hc; exact h c hc),
    List.reverse_reverse]

lemma dropTrailing_append_rest (p : Char → Bool) (l : List Char) :
    l = dropTrailing p l ++ (l.reverse.takeWhile p).reverse := by
  unfold dropTrailing
  conv_lhs => rw [← List.reverse_reverse l, ← List.takeWhile_append_dropWhile p l.reverse]
  rw [List.reverse_append]

lemma head?_dropTrailing (p : Char → Bool) (l : List Char) {c : Char}
    (h : (dropTrailing p l).head? = some c) : l.head? = some c := by
  conv_lhs => rw [dropTrailing_append_rest p l]
  rw [List.head?_append, h]; rfl

lemma pyStrip_head?_not {l : List Char} {c : Char}
    (h : (pyStrip l).head? = some c) : isWs c = false := by
  unfold pyStrip at h
  exact head?_dropWhile_not isWs l (head?_dropTrailing isWs _ h)

lemma pyStrip_getLast?_not {l : List Char} {c : Char}
    (h : (pyStrip l).getLast? = some c) : isWs c = false :=
  getLast?_dropTrailing_not isWs _ h

lemma pyStrip_eq_self {l : List Char}
    (hh : ∀ c, l.head? = some c → isWs c = false)
    (hl : ∀ c, l.getLast? = some c → isWs c = false) : pyStrip l = l := by
  unfold pyStrip
  rw [dropWhile_eq_self_of_head isWs l hh, dropTrailing_eq_self isWs l hl]

lemma getLast?_eq_some_of_ne_nil {α} {l : List α} (h : l ≠ []) :
    ∃ c, l.getLast? = some c := by
  cases e : l.getLast? with
  | some c => exact ⟨c, rfl⟩
  | none => exact absurd (List.getLast?_eq_none_iff.mp e) h

lemma getLast?_dropWhile_of_ne_nil (p : Char → Bool) (l : List Char)
    (h : l.dropWhile p ≠ []) : (l.dropWhile p).getLast? = l.getLast? := by
  obtain ⟨c, hc⟩ := getLast?_eq_some_of_ne_nil h
  conv_rhs => rw [← List.takeWhile_append_dropWhile p l]
  rw [List.getLast?_append, hc]; rfl

lemma isWs_isMarker {c : Char} (h : isWs c = true) : isMarker c = true := by
  simp only [isMarker, h]; simp

lemma not_isWs_of_not_isMarker {c : Char} (h : isMarker c = false) : isWs c = false := by
  cases hw : isWs c with
  | false => rfl
  | true => rw [isWs_isMarker hw] at h; cases h

/-- C7: `clean_name` is idempotent — stripping the trailing run of
whitespace, digits, minus/en-dash and superscript digits, then stripping
outer whitespace, reaches a fixed point after one application:
`clean_name (clean_name x) = clean_name x` for every string `x`. -/
theorem claim_C7_clean_name_idempotent (x : List Char) :
    clean_name (clean_name x) = clean_name x := by
  unfold clean_name
  set y := dropTrailing isMarker x with hy
  have hylast : ∀ c, y.getLast? = some c → isMarker c = false :=
    fun c h => getLast?_dropTrailing_not isMarker x (hy ▸ h)
  have h1 : pyStrip y = y.dropWhile isWs := by
    unfold pyStrip
    apply dropTrailing_eq_self
    intro c hc
    have hne : y.dropWhile isWs ≠ [] := by
      intro he; rw [he] at hc; simp at hc
    rw [getLast?_dropWhile_of_ne_nil isWs y hne] at hc
    exact not_isWs_of_not_isMarker (hylast c hc)
  rw [h1]
  set r := y.dropWhile isWs with hr
  have hrhead : ∀ c, r.head? = some c → isWs c = false :=
    fun c h => head?_dropWhile_not isWs y (hr ▸ h)
  have hrlast : ∀ c, r.getLast? = some c → isMarker c = false := by
    intro c h
    have hne : r ≠ [] := by intro he; rw [he] at h; simp at h
    rw [hr, getLast?_dropWhile_of_ne_nil isWs y (hr ▸ hne)] at h
    exact hylast c h
  rw [dropTrailing_eq_self isMarker r hrlast]
  exact pyStrip_eq_self hrhead (fun c h => not_isWs_of_not_isMarker (hrlast c h))

lemma dropWhile_map_comm (f : Char → Char) (p : Char → Bool)
    (h : ∀ c, p (f c) = p c) (l : List Char) :
    (l.map f).dropWhile p = (l.dropWhile p).map f := by
  induction l with
  | nil => rfl
  | cons a r ih =>
    by_cases hp : p a
    · rw [List.map_cons, List.dropWhile_cons_of_pos (by rw [h]; exact hp),
        List.dropWhile_cons_of_pos hp, ih]
    · rw [List.map_cons, List.dropWhile_cons_of_neg (by rw [h]; simpa using hp),
        List.dropWhile_cons_of_neg hp, List.map_cons]

lemma pyStrip_map_comm (f : Char → Char) (h : ∀ c, isWs (f c) = isWs c)
    (l : List Char) : pyStrip (l.map f) = (pyStrip l).map f := by
  unfold pyStrip dropTrailing
  rw [dropWhile_map_comm f isWs h l, ← List.map_reverse,
    dropWhile_map_comm f isWs h, List.map_reverse]

lemma parsePagesCore_map_dash (f : Char → Char)
    (hws : ∀ c, isWs (f c) = isWs c)
    (hnorm : ∀ c, (if f c = '–' ∨ f c = '—' then '-' else f c) =
      (if c = '–' ∨ c = '—' then '-' else c)) (s : List Char) :
    parsePagesCore (s.map f) = parsePagesCore s := by
  unfold parsePagesCore
  rw [pyStrip_map_comm f hws s, List.map_map]
  have hmap : List.map ((fun c => if c = '–' ∨ c = '—' then '-' else c) ∘ f) (pyStrip s) =
      List.map (fun c => if c = '–' ∨ c = '—' then '-' else c) (pyStrip s) :=
    List.map_congr_left fun c _ => hnorm c
  rw [hmap]

lemma parse_pages_map_dash (f : Char → Char)
    (hws : ∀ c, isWs (f c) = isWs c)
    (hnorm : ∀ c, (if f c = '–' ∨ f c = '—' then '-' else f c) =
      (if c = '–' ∨ c = '—' then '-' else c)) (s : List Char) :
    parse_pages (.str (s.map f)) = parse_pages (.str s) := by
  unfold parse_pages
  by_cases hs : s = []
  · subst hs; rfl
  · have h1 : truthy (Val.str s) = true := by simpa [truthy] using hs
    have h2 : truthy (Val.str (s.map f)) = true := by simpa [truthy] using hs
    rw [h1, h2]
    simp only [pyStr, not_true, if_false]
    exact parsePagesCore_map_dash f hws hnorm s

/-- C8: page parsing — `"12-25"` parses to `(12, 25)`, `"7"` to `(7, None)`,
the empty string and an absent value to `(None, None)`, and replacing
hyphens by en-dashes or em-dashes never changes the parse result. -/
theorem claim_C8_parse_pages :
    parse_pages (.str "12-25".toList) = (some 12, some 25) ∧
    parse_pages (.str "7".toList) = (some 7, none) ∧
    parse_pages (.str "".toList) = (none, none) ∧
    parse_pages Val.none = (none, none) ∧
    (∀ s : List Char,
      parse_pages (.str (s.map fun c => if c = '-' then '–' else c)) =
        parse_pages (.str s)) ∧
    (∀ s : List Char,
      parse_pages (.str (s.map fun c => if c = '-' then '—' else c)) =
        parse_pages (.str s)) := by
  refine ⟨by decide, by decide, by decide, by decide, ?_, ?_⟩
  · exact parse_pages_map_dash _
      (fun c => by rcases eq_or_ne c '-' with hc | hc
                   · subst hc; decide
                   · simp [hc])
      (fun c => by rcases eq_or_ne c '-' with hc | hc
                   · subst hc; decide
                   · simp [hc])
  · exact parse_pages_map_dash _
      (fun c => by rcases eq_or_ne c '-' with hc | hc
                   · subst hc; decide
                   · simp [hc])
      (fun c => by rcases eq_or_ne c '-' with hc | hc
                   · subst hc; decide
                   · simp [hc])

/-- C3 counterexample: the classifier does raise on a non-text input — on
`None`, `text.strip()` raises `AttributeError` (embedded as `Except.error`)
instead of returning the reject branch. -/
theorem claim_C3_counterexample : looks_like_name Val.none = .error () := rfl

/-- C3 (amended): on every string input — including the empty string and
strings of absurd length — `looks_like_name` returns a boolean and never
raises, and any string whose stripped length exceeds 40 is routed to the
reject branch (`False`); non-text inputs such as `None`, however, raise
`AttributeError` rather than being rejected. -/
theorem claim_C3_classifier_total_on_strings :
    (∀ s : List Char, ∃ b, looks_like_name (.str s) = .ok b) ∧
    (∀ s : List Char, 40 < (pyStrip s).length → looks_like_name (.str s) = .ok false) := by
  constructor
  · intro s; exact ⟨looksLikeNameStr s, rfl⟩
  · intro s h
    show Except.ok (looksLikeNameStr s) = Except.ok false
    unfold looksLikeNameStr
    rw [if_pos (Or.inr h)]

/-- C3 witness: a 41-character string is rejected without raising. -/
theorem claim_C3_witness :
    looks_like_name (.str (List.replicate 41 'a')) = .ok false :=
  claim_C3_classifier_total_on_strings.2 _ (by decide)

/-- C6: the computed authors display string is the `", "`-join of
`clean_name` over exactly the stored author names passing `looks_like_name`,
in stored order; with no passing author it is empty without error; and for
stored authors `["Петров П.П.", "доцент кафедры"]` it equals
`"Петров П.П."`. -/
theorem claim_C6_authors_display :
    (∀ as : List (List Char),
      authors_str as = joinCS ((as.filter looksLikeNameStr).map clean_name)) ∧
    authors_str ["Петров П.П.".toList, "доцент кафедры".toList] = "Петров П.П.".toList ∧
    (∀ as : List (List Char), (∀ a ∈ as, looksLikeNameStr a = false) →
      authors_str as = []) := by
  refine ⟨?_, by decide, ?_⟩
  · intro as
    unfold authors_str
    by_cases h : (as.filter looksLikeNameStr).map clean_name = []
    · rw [if_pos h, h]; rfl
    · rw [if_neg h]
  · intro as h
    unfold authors_str
    have hf : as.filter looksLikeNameStr = [] := by
      rw [List.filter_eq_nil_iff]
      intro a ha
      simp [h a ha]
    rw [hf]
    rfl

/-- C6 witness: an article whose only stored author is institutional noise
has the empty display string. -/
theorem claim_C6_witness : authors_str ["доцент кафедры".toList] = [] :=
  claim_C6_authors_display.2.2 _ (by decide)

/-- A token of the written form of a single-quoted SQL string literal: a
plain character, a backslash-escaped quote `\'`, or a doubled quote `''`. -/
inductive Tok where
  | plain : Char → Tok
  | escq : Tok
  | dblq : Tok
deriving DecidableEq, Repr

/-- The written characters of one token inside the quoted literal. -/
def encTok : Tok → List Char
  | .plain c => [c]
  | .escq => ['\\', '\'']
  | .dblq => ['\'', '\'']

/-- What the `parse_values` scanner appends to `current_val` for one token
(the backslash of an escape survives the scan; a doubled quote collapses). -/
def outTok : Tok → List Char
  | .plain c => [c]
  | .escq => ['\\', '\'']
  | .dblq => ['\'']

/-- The text character a token denotes (both escape forms denote `'`). -/
def decTok : Tok → Char
  | .plain c => c
  | .escq => '\''
  | .dblq => '\''

/-- The written form of a token list. -/
def encAll (ts : List Tok) : List Char := ts.flatMap encTok

/-- The scanner output of a token list. -/
def outAll (ts : List Tok) : List Char := ts.flatMap outTok

/-- The denoted text content of a token list. -/
def decAll (ts : List Tok) : List Char := ts.map decTok

/-- A plain token must not itself be a quote or a backslash (those are the
shapes the scanner treats specially inside a string literal). -/
def goodTok : Tok → Bool
  | .plain c => ¬(c = '\'' ∨ c = '\\')
  | _ => true

/-- A full INSERT line holding one tuple with a single quoted field. -/
def mkQuotedLine (content : List Char) : List Char :=
  "VALUES ('".toList ++ content ++ "')".toList

/-- A full INSERT line holding one tuple with a single unquoted field. -/
def mkBareLine (content : List Char) : List Char :=
  "VALUES (".toList ++ content ++ ")".toList

lemma scanAux_nil (st : ScanState) : scanAux st [] = st.rows := rfl

lemma scanAux_cons_eq (st : ScanState) (c : Char) (cs : List Char) :
    scanAux st (c :: cs) =
      (if st.escapeNext then
        scanAux { st with currentVal := st.currentVal ++ [c], escapeNext := false } cs
      else if c = '\\' ∧ st.inString then
        scanAux { st with escapeNext := true, currentVal := st.currentVal ++ [c] } cs
      else if c = '\'' ∧ ¬st.inString then
        scanAux { st with inString := true } cs
      else if c = '\'' ∧ st.inString then
        (if cs.head? = some '\'' then
          scanAux { st with currentVal := st.currentVal ++ ['\''] } cs.tail
        else scanAux { st with inString := false } cs)
      else if st.inString then
        scanAux { st with currentVal := st.currentVal ++ [c] } cs
      else if c = '(' then
        if st.parenDepth + 1 = 1 then
          scanAux { st with parenDepth := st.parenDepth + 1, currentVal := [] } cs
        else scanAux { st with parenDepth := st.parenDepth + 1 } cs
      else if c = ')' then
        if st.parenDepth - 1 = 0 then
          scanAux
            { st with
              parenDepth := st.parenDepth - 1
              rows := st.rows ++ [st.currentRow ++ [pyStrip st.currentVal]]
              currentRow := []
              currentVal := [] } cs
        else scanAux { st with parenDepth := st.parenDepth - 1 } cs
      else if c = ',' ∧ st.parenDepth = 1 then
        scanAux
          { st with
            currentRow := st.currentRow ++ [pyStrip st.currentVal]
            currentVal := [] } cs
      else if c = ',' ∧ st.parenDepth = 0 then
        scanAux st cs
      else
        scanAux { st with currentVal := st.currentVal ++ [c] } cs) := by
  rcases cs with _ | ⟨c2, l2⟩
  · rw [scanAux.eq_3 st c [] (by intro cs2 h; cases h)]
    simp
  · by_cases hq : c2 = '\''
    · subst hq
      rw [scanAux.eq_2]
      simp
    · rw [scanAux.eq_3 st c (c2 :: l2) (by intro cs2 h; injection h with h1 _; exact hq h1)]
      simp [hq]

lemma scan_step_instr_plain (rows : List (List (List Char))) (curRow : List (List Char))
    (cv : List Char) (d : Int) (c : Char) (hc1 : ¬c = '\'') (hc2 : ¬c = '\\') (l : List Char) :
    scanAux ⟨rows, curRow, cv, true, false, d⟩ (c :: l) =
      scanAux ⟨rows, curRow, cv ++ [c], true, false, d⟩ l := by
  rw [scanAux_cons_eq]
  simp [hc1, hc2]

lemma scan_step_escape_bs (rows : List (List (List Char))) (curRow : List (List Char))
    (cv : List Char) (d : Int) (l : List Char) :
    scanAux ⟨rows, curRow, cv, true, false, d⟩ ('\\' :: l) =
      scanAux ⟨rows, curRow, cv ++ ['\\'], true, true, d⟩ l := by
  rw [scanAux_cons_eq]
  simp

lemma scan_step_escaped (rows : List (List (List Char))) (curRow : List (List Char))
    (cv : List Char) (d : Int) (c : Char) (l : List Char) :
    scanAux ⟨rows, curRow, cv, true, true, d⟩ (c :: l) =
      scanAux ⟨rows, curRow, cv ++ [c], true, false, d⟩ l := by
  rw [scanAux_cons_eq]
  simp

lemma scan_step_dblq (rows : List (List (List Char))) (curRow : List (List Char))
    (cv : List Char) (d : Int) (l : List Char) :
    scanAux ⟨rows, curRow, cv, true, false, d⟩ ('\'' :: '\'' :: l) =
      scanAux ⟨rows, curRow, cv ++ ['\''], true, false, d⟩ l := by
  rw [scanAux_cons_eq]
  simp

lemma scanAux_inString (ts : List Tok) (h : ∀ t ∈ ts, goodTok t = true)
    (rows : List (List (List Char))) (curRow : List (List Char))
    (cv : List Char) (d : Int) (rest : List Char) :
    scanAux ⟨rows, curRow, cv, true, false, d⟩ (encAll ts ++ rest) =
      scanAux ⟨rows, curRow, cv ++ outAll ts, true, false, d⟩ rest := by
  induction ts generalizing cv with
  | nil => simp [encAll, outAll]
  | cons t ts' ih =>
    have ht : goodTok t = true := h t (by simp)
    have h' : ∀ t ∈ ts', goodTok t = true := fun t' ht' => h t' (by simp [ht'])
    cases t with
    | plain c =>
      have hc : ¬(c = '\'' ∨ c = '\\') := by simpa [goodTok] using ht
      have hc1 : ¬c = '\'' := fun e => hc (Or.inl e)
      have hc2 : ¬c = '\\' := fun e => hc (Or.inr e)
      have e1 : encAll (Tok.plain c :: ts') ++ rest = c :: (encAll ts' ++ rest) := by
        simp [encAll, encTok]
      rw [e1, scan_step_instr_plain rows curRow cv d c hc1 hc2, ih h' (cv ++ [c])]
      simp [outAll, outTok]
    | escq =>
      have e1 : encAll (Tok.escq :: ts') ++ rest = '\\' :: '\'' :: (encAll ts' ++ rest) := by
        simp [encAll, encTok]
      rw [e1, scan_step_escape_bs, scan_step_escaped, ih h' ((cv ++ ['\\']) ++ ['\''])]
      simp [outAll, outTok]
    | dblq =>
      have e1 : encAll (Tok.dblq :: ts') ++ rest = '\'' :: '\'' :: (encAll ts' ++ rest) := by
        simp [encAll, encTok]
      rw [e1, scan_step_dblq, ih h' (cv ++ ['\''])]
      simp [outAll, outTok]

/-- Characters an unquoted token may contain without the scanner treating
them specially at depth 1. -/
def bareOk (c : Char) : Bool :=
  ¬(c = '\\' ∨ c = '\'' ∨ c = '(' ∨ c = ')' ∨ c = ',')

lemma scanAux_bare (cs : List Char) (h : ∀ c ∈ cs, bareOk c = true)
    (rows : List (List (List Char))) (curRow : List (List Char))
    (cv : List Char) (rest : List Char) :
    scanAux ⟨rows, curRow, cv, false, false, 1⟩ (cs ++ rest) =
      scanAux ⟨rows, curRow, cv ++ cs, false, false, 1⟩ rest := by
  induction cs generalizing cv with
  | nil => simp
  | cons c cs' ih =>
    have hc : ¬(c = '\\' ∨ c = '\'' ∨ c = '(' ∨ c = ')' ∨ c = ',') := by
      simpa [bareOk] using h c (by simp)
    have h' : ∀ x ∈ cs', bareOk x = true := fun x hx => h x (by simp [hx])
    have hc1 : ¬c = '\\' := fun e => hc (Or.inl e)
    have hc2 : ¬c = '\'' := fun e => hc (Or.inr (Or.inl e))
    have hc3 : ¬c = '(' := fun e => hc (Or.inr (Or.inr (Or.inl e)))
    have hc4 : ¬c = ')' := fun e => hc (Or.inr (Or.inr (Or.inr (Or.inl e))))
    have hc5 : ¬c = ',' := fun e => hc (Or.inr (Or.inr (Or.inr (Or.inr e))))
    have step : scanAux ⟨rows, curRow, cv, false, false, 1⟩ (c :: (cs' ++ rest)) =
        scanAux ⟨rows, curRow, cv ++ [c], false, false, 1⟩ (cs' ++ rest) := by
      rw [scanAux_cons_eq]
      simp [hc1, hc2, hc3, hc4, hc5]
    rw [List.cons_append, step, ih h' (cv ++ [c])]
    simp

lemma dropTrailing_line_end (x : List Char) :
    dropTrailing (fun c => c = ';') (dropTrailing isWs (x ++ [')'])) = x ++ [')'] := by
  have h1 : dropTrailing isWs (x ++ [')']) = x ++ [')'] := by
    apply dropTrailing_eq_self
    intro c hcl
    rw [List.getLast?_concat] at hcl
    cases hcl; decide
  rw [h1]
  apply dropTrailing_eq_self
  intro c hcl
  rw [List.getLast?_concat] at hcl
  cases hcl; decide

lemma scan_step_lparen0 (rows : List (List (List Char))) (curRow : List (List Char))
    (cv : List Char) (l : List Char) :
    scanAux ⟨rows, curRow, cv, false, false, 0⟩ ('(' :: l) =
      scanAux ⟨rows, curRow, [], false, false, 1⟩ l := by
  rw [scanAux_cons_eq]
  simp

lemma scan_step_openquote (rows : List (List (List Char))) (curRow : List (List Char))
    (cv : List Char) (d : Int) (l : List Char) :
    scanAux ⟨rows, curRow, cv, false, false, d⟩ ('\'' :: l) =
      scanAux ⟨rows, curRow, cv, true, false, d⟩ l := by
  rw [scanAux_cons_eq]
  simp

lemma scan_step_closequote_rparen (rows : List (List (List Char))) (curRow : List (List Char))
    (cv : List Char) (d : Int) (l : List Char) :
    scanAux ⟨rows, curRow, cv, true, false, d⟩ ('\'' :: ')' :: l) =
      scanAux ⟨rows, curRow, cv, false, false, d⟩ (')' :: l) := by
  rw [scanAux_cons_eq]
  simp

lemma scan_step_rparen1 (rows : List (List (List Char))) (curRow : List (List Char))
    (cv : List Char) (l : List Char) :
    scanAux ⟨rows, curRow, cv, false, false, 1⟩ (')' :: l) =
      scanAux ⟨rows ++ [curRow ++ [pyStrip cv]], [], [], false, false, 0⟩ l := by
  rw [scanAux_cons_eq]
  simp

/-- The scanner result for a line holding one tuple with one quoted field
built from well-formed tokens: one row with one field, the scanner output of
the tokens, stripped. -/
theorem parse_values_quoted (ts : List Tok) (h : ∀ t ∈ ts, goodTok t = true) :
    parse_values (mkQuotedLine (encAll ts)) = [[pyStrip (outAll ts)]] := by
  have h0 : afterValues (mkQuotedLine (encAll ts)) =
      some ('(' :: '\'' :: (encAll ts ++ ['\'', ')'])) := by
    show afterValues ('V' :: 'A' :: 'L' :: 'U' :: 'E' :: 'S' :: ' ' :: '(' :: '\'' ::
      (encAll ts ++ ['\'', ')'])) = _
    simp [afterValues, isPre, isWs]
  have e2 : '(' :: '\'' :: (encAll ts ++ ['\'', ')']) =
      ('(' :: '\'' :: (encAll ts ++ ['\''])) ++ [')'] := by
    simp
  simp only [parse_values, h0]
  rw [e2, dropTrailing_line_end, ← e2, scan_step_lparen0, scan_step_openquote]
  have e3 : encAll ts ++ ['\'', ')'] = encAll ts ++ ('\'' :: ')' :: []) := rfl
  rw [e3, scanAux_inString ts h [] [] [] 1 ('\'' :: ')' :: []),
    scan_step_closequote_rparen, scan_step_rparen1, scanAux_nil]
  simp

/-- The scanner result for a line holding one tuple with one unquoted field
of unremarkable characters: one row with one field, stripped. -/
theorem parse_values_bare (cs : List Char) (h : ∀ c ∈ cs, bareOk c = true) :
    parse_values (mkBareLine cs) = [[pyStrip cs]] := by
  have h0 : afterValues (mkBareLine cs) = some ('(' :: (cs ++ [')'])) := by
    show afterValues ('V' :: 'A' :: 'L' :: 'U' :: 'E' :: 'S' :: ' ' :: '(' ::
      (cs ++ [')'])) = _
    simp [afterValues, isPre, isWs]
  have e2 : '(' :: (cs ++ [')']) = ('(' :: cs) ++ [')'] := by simp
  simp only [parse_values, h0]
  rw [e2, dropTrailing_line_end ('(' :: cs), ← e2, scan_step_lparen0]
  have e3 : cs ++ [')'] = cs ++ (')' :: []) := rfl
  rw [e3, scanAux_bare cs h [] [] [] (')' :: []), scan_step_rparen1, scanAux_nil]
  simp

lemma isWs_false_of_isDigit {c : Char} (h : c.isDigit = true) : isWs c = false := by
  cases hw : isWs c with
  | false => rfl
  | true =>
    exfalso
    have hw' : c = ' ' ∨ c = '\t' ∨ c = '\n' ∨ c = '\r' ∨ c = '\u000b' ∨ c = '\u000c' := by
      simpa [isWs] using hw
    rcases hw' with h1 | h1 | h1 | h1 | h1 | h1 <;> (subst h1; exact absurd h (by decide))

lemma pyStrip_of_no_ws {l : List Char} (h : ∀ c ∈ l, isWs c = false) : pyStrip l = l := by
  apply pyStrip_eq_self
  · intro c hc
    exact h c (List.mem_of_mem_head? (by rw [hc]; simp))
  · intro c hc
    exact h c (List.mem_of_mem_getLast? (by rw [hc]; simp))

lemma encAll_map_plain (cs : List Char) : encAll (cs.map Tok.plain) = cs := by
  induction cs with
  | nil => rfl
  | cons c r ih => simp [encAll, encTok] at ih ⊢; exact ih

lemma outAll_map_plain (cs : List Char) : outAll (cs.map Tok.plain) = cs := by
  induction cs with
  | nil => rfl
  | cons c r ih => simp [outAll, outTok] at ih ⊢; exact ih

lemma takeWhile_all {p : Char → Bool} {l : List Char} (h : ∀ c ∈ l, p c = true) :
    l.takeWhile p = l := by
  induction l with
  | nil => rfl
  | cons c r ih =>
    rw [List.takeWhile_cons_of_pos (h c (by simp))]
    rw [ih fun x hx => h x (by simp [hx])]

lemma dropWhile_all {p : Char → Bool} {l : List Char} (h : ∀ c ∈ l, p c = true) :
    l.dropWhile p = [] := by
  induction l with
  | nil => rfl
  | cons c r ih =>
    rw [List.dropWhile_cons_of_pos (h c (by simp))]
    exact ih fun x hx => h x (by simp [hx])

lemma takeWhile_append_stop {p : Char → Bool} {a : List Char} {x : Char} {r : List Char}
    (ha : ∀ c ∈ a, p c = true) (hx : p x = false) :
    (a ++ x :: r).takeWhile p = a ∧ (a ++ x :: r).dropWhile p = x :: r := by
  induction a with
  | nil => simp [List.takeWhile_cons, List.dropWhile_cons, hx]
  | cons c d ih =>
    have hc : p c = true := ha c (by simp)
    have ih' := ih fun y hy => ha y (by simp [hy])
    constructor
    · rw [List.cons_append, List.takeWhile_cons_of_pos hc, ih'.1]
    · rw [List.cons_append, List.dropWhile_cons_of_pos hc, ih'.2]

lemma stripSign_of_head_not_sign {l : List Char}
    (h : ∀ c, l.head? = some c → ¬(c = '+' ∨ c = '-')) : stripSign l = l := by
  cases l with
  | nil => rfl
  | cons c r =>
    rw [stripSign, if_neg (h c rfl)]

lemma mem_stripSign {c : Char} {l : List Char} (hm : c ∈ l)
    (h1 : ¬c = '+') (h2 : ¬c = '-') : c ∈ stripSign l := by
  cases l with
  | nil => cases hm
  | cons a r =>
    rw [stripSign]
    by_cases hs : a = '+' ∨ a = '-'
    · rw [if_pos hs]
      rcases List.mem_cons.mp hm with he | hm'
      · subst he
        rcases hs with e | e
        · exact absurd e h1
        · exact absurd e h2
      · exact hm'
    · rw [if_neg hs]; exact hm

lemma pyIntParse_digits {ds : List Char} (h1 : ds ≠ [])
    (h2 : ∀ c ∈ ds, c.isDigit = true) :
    pyIntParse ds = some (natOfDigits ds : Int) := by
  have hsign : ∀ c, ds.head? = some c → ¬(c = '+' ∨ c = '-') := by
    intro c hc hor
    have := h2 c (List.mem_of_mem_head? (by rw [hc]; simp))
    rcases hor with e | e
    · rw [e] at this; exact absurd this (by decide)
    · rw [e] at this; exact absurd this (by decide)
  simp only [pyIntParse]
  rw [pyStrip_of_no_ws fun c hc => isWs_false_of_isDigit (h2 c hc),
    stripSign_of_head_not_sign hsign]
  rw [if_pos ⟨h1, List.all_eq_true.mpr h2⟩]
  have hneg : ¬ds.head? = some '-' := by
    intro hc
    exact hsign '-' hc (Or.inr rfl)
  rw [if_neg hneg]

lemma clean_val_digits {ds : List Char} (h1 : ds ≠ [])
    (h2 : ∀ c ∈ ds, c.isDigit = true) :
    clean_val ds = .int (natOfDigits ds : Int) := by
  unfold clean_val
  have hnull : ¬ds = "NULL".toList := by
    intro e
    have : ('N' : Char) ∈ ds := by rw [e]; decide
    exact absurd (h2 'N' this) (by decide)
  rw [if_neg (by intro hor; rcases hor with ho | ho; exact hnull ho; exact h1 ho)]
  have hdot : ¬('.' : Char) ∈ ds := by
    intro hm
    exact absurd (h2 '.' hm) (by decide)
  rw [if_neg hdot, pyIntParse_digits h1 h2]

lemma pyFloatOk_decimal {d1 d2 : List Char} (h1 : d1 ≠ []) (h2 : d2 ≠ [])
    (hd1 : ∀ c ∈ d1, c.isDigit = true) (hd2 : ∀ c ∈ d2, c.isDigit = true) :
    pyFloatOk (d1 ++ '.' :: d2) = true := by
  have hnws : ∀ c ∈ d1 ++ '.' :: d2, isWs c = false := by
    intro c hc
    rcases List.mem_append.mp hc with hm | hm
    · exact isWs_false_of_isDigit (hd1 c hm)
    · rcases List.mem_cons.mp hm with he | hm'
      · subst he; decide
      · exact isWs_false_of_isDigit (hd2 c hm')
  have hsign : ∀ c, (d1 ++ '.' :: d2).head? = some c → ¬(c = '+' ∨ c = '-') := by
    intro c hc hor
    have hcm : c ∈ d1 ++ '.' :: d2 := List.mem_of_mem_head? (by rw [hc]; simp)
    rcases List.mem_append.mp hcm with hm | hm
    · have := hd1 c hm
      rcases hor with e | e
      · rw [e] at this; exact absurd this (by decide)
      · rw [e] at this; exact absurd this (by decide)
    · rcases List.mem_cons.mp hm with he | hm'
      · subst he; rcases hor with e | e <;> cases e
      · have := hd2 c hm'
        rcases hor with e | e
        · rw [e] at this; exact absurd this (by decide)
        · rw [e] at this; exact absurd this (by decide)
  unfold pyFloatOk
  rw [pyStrip_of_no_ws hnws, stripSign_of_head_not_sign hsign]
  unfold floatMantissa
  have hsplit := takeWhile_append_stop (p := Char.isDigit) hd1 (x := '.') (r := d2) (by decide)
  rw [hsplit.1, hsplit.2]
  rw [if_pos (by simp)]
  simp only [List.tail_cons]
  simp only [takeWhile_all hd2, dropWhile_all hd2]
  simp [floatExpPart, h1]

lemma clean_val_decimal {d1 d2 : List Char} (h1 : d1 ≠ []) (h2 : d2 ≠ [])
    (hd1 : ∀ c ∈ d1, c.isDigit = true) (hd2 : ∀ c ∈ d2, c.isDigit = true) :
    clean_val (d1 ++ '.' :: d2) = .float (d1 ++ '.' :: d2) := by
  unfold clean_val
  have hnull : ¬d1 ++ '.' :: d2 = "NULL".toList := by
    intro e
    have : ('.' : Char) ∈ "NULL".toList := by rw [← e]; simp
    exact absurd this (by decide)
  rw [if_neg (by intro hor; rcases hor with ho | ho; exact hnull ho; simp at ho)]
  rw [if_pos (by simp), pyFloatOk_decimal h1 h2 hd1 hd2]
  rfl

lemma goodTok_of_plain {c : Char} (h1 : ¬c = '\'') (h2 : ¬c = '\\') :
    goodTok (Tok.plain c) = true := by
  simp [goodTok, h1, h2]

lemma not_quote_bs_of_digit {c : Char} (h : c.isDigit = true) :
    ¬c = '\'' ∧ ¬c = '\\' :=
  ⟨fun e => absurd (e ▸ h) (by decide), fun e => absurd (e ▸ h) (by decide)⟩

lemma bareOk_of_digit {c : Char} (h : c.isDigit = true) : bareOk c = true := by
  have h1 : ¬c = '\\' := fun e => absurd (e ▸ h) (by decide)
  have h2 : ¬c = '\'' := fun e => absurd (e ▸ h) (by decide)
  have h3 : ¬c = '(' := fun e => absurd (e ▸ h) (by decide)
  have h4 : ¬c = ')' := fun e => absurd (e ▸ h) (by decide)
  have h5 : ¬c = ',' := fun e => absurd (e ▸ h) (by decide)
  simp [bareOk, h1, h2, h3, h4, h5]

lemma parse_values_quoted_plain (cs : List Char)
    (h : ∀ c ∈ cs, ¬c = '\'' ∧ ¬c = '\\') :
    parse_values (mkQuotedLine cs) = [[pyStrip cs]] := by
  have hg : ∀ t ∈ cs.map Tok.plain, goodTok t = true := by
    intro t ht
    rcases List.mem_map.mp ht with ⟨c, hc, rfl⟩
    exact goodTok_of_plain (h c hc).1 (h c hc).2
  conv_lhs => rw [← encAll_map_plain cs]
  rw [parse_values_quoted _ hg, outAll_map_plain]

/-- C9: `parse_values` strips outer whitespace from every field at the tuple
boundary, including whitespace inside a quoted string literal — the parsed
value of a quoted field is the stripped content, and whenever the content
starts or ends with whitespace the parsed value differs from the content. -/
theorem claim_C9_quoted_field_stripped (cs : List Char)
    (h : ∀ c ∈ cs, ¬c = '\'' ∧ ¬c = '\\') :
    parse_values (mkQuotedLine cs) = [[pyStrip cs]] ∧
    (((∃ c, cs.head? = some c ∧ isWs c = true) ∨
      (∃ c, cs.getLast? = some c ∧ isWs c = true)) →
      parse_values (mkQuotedLine cs) ≠ [[cs]]) := by
  have h1 := parse_values_quoted_plain cs h
  refine ⟨h1, ?_⟩
  intro hws heq
  rw [h1] at heq
  have hstrip : pyStrip cs = cs := by
    have := List.cons_eq_cons.mp heq
    have := List.cons_eq_cons.mp this.1
    exact this.1
  rcases hws with ⟨c, hh, hwc⟩ | ⟨c, hh, hwc⟩
  · have : (pyStrip cs).head? = some c := by rw [hstrip]; exact hh
    rw [pyStrip_head?_not this] at hwc
    cases hwc
  · have : (pyStrip cs).getLast? = some c := by rw [hstrip]; exact hh
    rw [pyStrip_getLast?_not this] at hwc
    cases hwc

/-- C9 witness: the quoted field `' ab '` parses to `ab`, not to `' ab '`. -/
theorem claim_C9_witness :
    parse_values (mkQuotedLine (' ' :: 'a' :: 'b' :: ' ' :: [])) ≠
      [[' ' :: 'a' :: 'b' :: ' ' :: []]] :=
  (claim_C9_quoted_field_stripped _ (by decide)).2 (Or.inl ⟨' ', rfl, by decide⟩)

/-- C10: because quoting is erased before `clean_val` runs, a quoted literal
is normalized exactly like the corresponding bare token: `'NULL'` and `''`
become `None`, an all-digit quoted literal imports as the same `int` as
the bare digits, and a digits-dot-digits quoted literal imports as the same
`float` as the bare decimal. -/
theorem claim_C10_quote_erasure_normalization :
    (∀ ds : List Char, ds ≠ [] → (∀ c ∈ ds, c.isDigit = true) →
      rowVals (mkQuotedLine ds) = [[Val.int (natOfDigits ds : Int)]] ∧
      rowVals (mkBareLine ds) = [[Val.int (natOfDigits ds : Int)]]) ∧
    rowVals (mkQuotedLine "NULL".toList) = [[Val.none]] ∧
    rowVals (mkQuotedLine []) = [[Val.none]] ∧
    (∀ d1 d2 : List Char, d1 ≠ [] → d2 ≠ [] →
      (∀ c ∈ d1, c.isDigit = true) → (∀ c ∈ d2, c.isDigit = true) →
      rowVals (mkQuotedLine (d1 ++ '.' :: d2)) = [[Val.float (d1 ++ '.' :: d2)]] ∧
      rowVals (mkBareLine (d1 ++ '.' :: d2)) = [[Val.float (d1 ++ '.' :: d2)]]) := by
  refine ⟨?_, ?_, ?_, ?_⟩
  case refine_2 =>
    rw [rowVals, parse_values_quoted_plain "NULL".toList (by decide)]
    decide
  case refine_3 =>
    rw [rowVals, parse_values_quoted_plain [] (by decide)]
    decide
  · intro ds hne hdig
    have hstrip : pyStrip ds = ds :=
      pyStrip_of_no_ws fun c hc => isWs_false_of_isDigit (hdig c hc)
    have hcv : clean_val ds = .int (natOfDigits ds : Int) := clean_val_digits hne hdig
    constructor
    · rw [rowVals, parse_values_quoted_plain ds fun c hc => not_quote_bs_of_digit (hdig c hc),
        hstrip]
      simp [hcv]
    · rw [rowVals, parse_values_bare ds fun c hc => bareOk_of_digit (hdig c hc), hstrip]
      simp [hcv]
  · intro d1 d2 h1 h2 hd1 hd2
    have hnws : ∀ c ∈ d1 ++ '.' :: d2, isWs c = false := by
      intro c hc
      rcases List.mem_append.mp hc with hm | hm
      · exact isWs_false_of_isDigit (hd1 c hm)
      · rcases List.mem_cons.mp hm with he | hm'
        · subst he; decide
        · exact isWs_false_of_isDigit (hd2 c hm')
    have hstrip : pyStrip (d1 ++ '.' :: d2) = d1 ++ '.' :: d2 := pyStrip_of_no_ws hnws
    have hgood : ∀ c ∈ d1 ++ '.' :: d2, ¬c = '\'' ∧ ¬c = '\\' := by
      intro c hc
      rcases List.mem_append.mp hc with hm | hm
      · exact not_quote_bs_of_digit (hd1 c hm)
      · rcases List.mem_cons.mp hm with he | hm'
        · subst he; exact ⟨by decide, by decide⟩
        · exact not_quote_bs_of_digit (hd2 c hm')
    have hbare : ∀ c ∈ d1 ++ '.' :: d2, bareOk c = true := by
      intro c hc
      rcases List.mem_append.mp hc with hm | hm
      · exact bareOk_of_digit (hd1 c hm)
      · rcases List.mem_cons.mp hm with he | hm'
        · subst he; decide
        · exact bareOk_of_digit (hd2 c hm')
    have hcv : clean_val (d1 ++ '.' :: d2) = .float (d1 ++ '.' :: d2) :=
      clean_val_decimal h1 h2 hd1 hd2
    constructor
    · rw [rowVals, parse_values_quoted_plain _ hgood, hstrip]
      simp [hcv]
    · rw [rowVals, parse_values_bare _ hbare, hstrip]
      simp [hcv]

/-- C10 witness: the quoted literal `'12'` and the bare token `12` import as
the same integer. -/
theorem claim_C10_witness :
    rowVals (mkQuotedLine ('1' :: '2' :: [])) =
      [[Val.int (natOfDigits ('1' :: '2' :: []) : Int)]] ∧
    rowVals (mkBareLine ('1' :: '2' :: [])) =
      [[Val.int (natOfDigits ('1' :: '2' :: []) : Int)]] :=
  claim_C10_quote_erasure_normalization.1 _ (by decide) (by decide)

lemma replace2_cons_head_ne (a b c x : Char) (l : List Char) (hx : ¬x = a) :
    replace2 a b c (x :: l) = x :: replace2 a b c l := by
  cases l with
  | nil => rfl
  | cons y r =>
    rw [replace2]
    rw [if_neg (by intro hand; exact hx hand.1)]

lemma replace2_cons_match (a b c : Char) (r : List Char) :
    replace2 a b c (a :: b :: r) = c :: replace2 a b c r := by
  rw [replace2]
  rw [if_pos ⟨rfl, rfl⟩]

lemma replace2_not_in (b c : Char) (l : List Char) (h : ('\\' : Char) ∉ l) :
    replace2 '\\' b c l = l := by
  induction l with
  | nil => rfl
  | cons x r ih =>
    have hx : ¬x = '\\' := by intro e; exact h (by simp [e])
    rw [replace2_cons_head_ne _ _ _ _ _ hx, ih fun hm => h (by simp [hm])]

lemma replace2_out (ts : List Tok) (h : ∀ t ∈ ts, goodTok t = true) :
    replace2 '\\' '\'' '\'' (outAll ts) = decAll ts := by
  induction ts with
  | nil => rfl
  | cons t ts' ih =>
    have ht : goodTok t = true := h t (by simp)
    have ih' := ih fun x hx => h x (by simp [hx])
    cases t with
    | plain c =>
      have hc : ¬(c = '\'' ∨ c = '\\') := by simpa [goodTok] using ht
      have e1 : outAll (Tok.plain c :: ts') = c :: outAll ts' := by simp [outAll, outTok]
      rw [e1, replace2_cons_head_ne _ _ _ _ _ (fun e => hc (Or.inr e)), ih']
      simp [decAll, decTok]
    | escq =>
      have e1 : outAll (Tok.escq :: ts') = '\\' :: '\'' :: outAll ts' := by
        simp [outAll, outTok]
      rw [e1, replace2_cons_match, ih']
      simp [decAll, decTok]
    | dblq =>
      have e1 : outAll (Tok.dblq :: ts') = '\'' :: outAll ts' := by simp [outAll, outTok]
      rw [e1, replace2_cons_head_ne _ _ _ _ _ (by decide), ih']
      simp [decAll, decTok]

lemma htmlUnescapeFuel_no_amp (fuel : Nat) :
    ∀ l : List Char, ('&' : Char) ∉ l → htmlUnescapeFuel fuel l = l := by
  induction fuel with
  | zero =>
    intro l _
    cases l with
    | nil => rfl
    | cons c r => rfl
  | succ n ih =>
    intro l h
    cases l with
    | nil => rfl
    | cons c r =>
      have hc : ¬c = '&' := by intro e; exact h (by simp [e])
      rw [htmlUnescapeFuel, if_neg hc, ih r fun hm => h (by simp [hm])]

lemma htmlUnescape_no_amp (l : List Char) (h : ('&' : Char) ∉ l) :
    htmlUnescape l = l :=
  htmlUnescapeFuel_no_amp l.length l h

lemma bs_not_mem_decAll (ts : List Tok) (h : ∀ t ∈ ts, goodTok t = true) :
    ('\\' : Char) ∉ decAll ts := by
  induction ts with
  | nil => simp [decAll]
  | cons t ts' ih =>
    have ht : goodTok t = true := h t (by simp)
    have ih' := ih fun x hx => h x (by simp [hx])
    intro hm
    have hm' : ('\\' : Char) = decTok t ∨ ∃ a ∈ ts', decTok a = '\\' := by
      simpa [decAll] using hm
    rcases hm' with he | ⟨a, ha, hae⟩
    · cases t with
      | plain c =>
        have hc : ¬(c = '\'' ∨ c = '\\') := by simpa [goodTok] using ht
        exact hc (Or.inr (by simpa [decTok] using he.symm))
      | escq => exact absurd he (by decide)
      | dblq => exact absurd he (by decide)
    · exact ih' (by simp [decAll]; exact ⟨a, ha, hae⟩)

lemma unescapeStr_out (ts : List Tok) (h : ∀ t ∈ ts, goodTok t = true)
    (hamp : ('&' : Char) ∉ decAll ts) :
    unescapeStr (outAll ts) = decAll ts := by
  unfold unescapeStr
  rw [replace2_out ts h]
  have hbs := bs_not_mem_decAll ts h
  rw [replace2_not_in _ _ _ hbs, replace2_not_in _ _ _ hbs, replace2_not_in _ _ _ hbs,
    replace2_not_in _ _ _ hbs]
  exact htmlUnescape_no_amp _ hamp

lemma mem_dropWhile_of_not {p : Char → Bool} {c : Char} {l : List Char}
    (hm : c ∈ l) (hc : p c = false) : c ∈ l.dropWhile p := by
  induction l with
  | nil => cases hm
  | cons a r ih =>
    by_cases hp : p a
    · rw [List.dropWhile_cons_of_pos hp]
      rcases List.mem_cons.mp hm with he | hm'
      · subst he; rw [hp] at hc; cases hc
      · exact ih hm'
    · rw [List.dropWhile_cons_of_neg hp]
      exact hm

lemma mem_pyStrip {c : Char} {l : List Char} (hm : c ∈ l) (hc : isWs c = false) :
    c ∈ pyStrip l := by
  unfold pyStrip dropTrailing
  rw [List.mem_reverse]
  apply mem_dropWhile_of_not _ hc
  rw [List.mem_reverse]
  exact mem_dropWhile_of_not hm hc

lemma floatExpPart_false_of_bs {l : List Char} (h : ('\\' : Char) ∈ l) :
    floatExpPart l = false := by
  unfold floatExpPart
  rw [if_neg (by intro e; rw [e] at h; cases h)]
  by_cases hh : l.head? = some 'e' ∨ l.head? = some 'E'
  · rw [if_pos hh]
    have ht : ('\\' : Char) ∈ l.tail := by
      cases l with
      | nil => cases h
      | cons c t =>
        rcases List.mem_cons.mp h with he | hm
        · exfalso
          rcases hh with e | e
          · simp only [List.head?_cons, Option.some.injEq] at e
            rw [e] at he; cases he
          · simp only [List.head?_cons, Option.some.injEq] at e
            rw [e] at he; cases he
        · simpa using hm
    have hd : ('\\' : Char) ∈ stripSign l.tail :=
      mem_stripSign ht (by decide) (by decide)
    show decide (stripSign l.tail ≠ [] ∧ (stripSign l.tail).all Char.isDigit = true) = false
    rw [decide_eq_false_iff_not]
    intro hand
    exact absurd (List.all_eq_true.mp hand.2 '\\' hd) (by decide)
  · rw [if_neg hh]

lemma floatMantissa_false_of_bs {l : List Char} (h : ('\\' : Char) ∈ l) :
    floatMantissa l = false := by
  unfold floatMantissa
  have hmem : ('\\' : Char) ∈ l.dropWhile Char.isDigit :=
    mem_dropWhile_of_not h (by decide)
  by_cases hh : (l.dropWhile Char.isDigit).head? = some '.'
  · rw [if_pos hh]
    have ht : ('\\' : Char) ∈ (l.dropWhile Char.isDigit).tail := by
      cases hr1 : l.dropWhile Char.isDigit with
      | nil => rw [hr1] at hmem; cases hmem
      | cons a t =>
        rw [hr1] at hmem hh
        simp only [List.head?_cons, Option.some.injEq] at hh
        rcases List.mem_cons.mp hmem with he | hm
        · rw [hh] at he; cases he
        · simpa using hm
    have hr3 : ('\\' : Char) ∈ (l.dropWhile Char.isDigit).tail.dropWhile Char.isDigit :=
      mem_dropWhile_of_not ht (by decide)
    simp [floatExpPart_false_of_bs hr3]
  · rw [if_neg hh]
    simp [floatExpPart_false_of_bs hmem]

lemma pyFloatOk_false_of_bs {l : List Char} (h : ('\\' : Char) ∈ l) :
    pyFloatOk l = false := by
  unfold pyFloatOk
  exact floatMantissa_false_of_bs
    (mem_stripSign (mem_pyStrip h (by decide)) (by decide) (by decide))

lemma pyIntParse_none_of_bs {l : List Char} (h : ('\\' : Char) ∈ l) :
    pyIntParse l = none := by
  have hd : ('\\' : Char) ∈ stripSign (pyStrip l) :=
    mem_stripSign (mem_pyStrip h (by decide)) (by decide) (by decide)
  simp only [pyIntParse]
  rw [if_neg]
  intro hand
  exact absurd (List.all_eq_true.mp hand.2 '\\' hd) (by decide)

lemma bs_mem_outAll {ts : List Tok} (h : Tok.escq ∈ ts) : ('\\' : Char) ∈ outAll ts := by
  induction ts with
  | nil => cases h
  | cons t ts' ih =>
    rcases List.mem_cons.mp h with he | hm
    · subst he
      simp [outAll, outTok]
    · have : ('\\' : Char) ∈ outAll ts' := ih hm
      simp only [outAll, List.flatMap_cons, List.mem_append]
      exact Or.inr (by simpa [outAll] using this)

lemma outAll_head_not_ws (ts : List Tok)
    (hhead : ∀ c, (decAll ts).head? = some c → isWs c = false) :
    ∀ c, (outAll ts).head? = some c → isWs c = false := by
  cases ts with
  | nil => intro c hc; simp [outAll] at hc
  | cons t ts' =>
    intro c hc
    cases t with
    | plain c0 =>
      have e : outAll (Tok.plain c0 :: ts') = c0 :: outAll ts' := by simp [outAll, outTok]
      rw [e] at hc
      simp only [List.head?_cons, Option.some.injEq] at hc
      subst hc
      exact hhead c0 (by simp [decAll, decTok])
    | escq =>
      have e : outAll (Tok.escq :: ts') = '\\' :: '\'' :: outAll ts' := by
        simp [outAll, outTok]
      rw [e] at hc
      simp only [List.head?_cons, Option.some.injEq] at hc
      subst hc
      decide
    | dblq =>
      have e : outAll (Tok.dblq :: ts') = '\'' :: outAll ts' := by simp [outAll, outTok]
      rw [e] at hc
      simp only [List.head?_cons, Option.some.injEq] at hc
      subst hc
      decide

lemma outAll_getLast_not_ws (ts : List Tok)
    (hlast : ∀ c, (decAll ts).getLast? = some c → isWs c = false) :
    ∀ c, (outAll ts).getLast? = some c → isWs c = false := by
  rcases List.eq_nil_or_concat ts with rfl | ⟨ts', t, rfl⟩
  · intro c hc; simp [outAll] at hc
  · intro c hc
    rw [List.concat_eq_append] at hlast hc
    have e : outAll (ts' ++ [t]) = outAll ts' ++ outTok t := by
      simp [outAll]
    rw [e, List.getLast?_append] at hc
    have hdec : (decAll (ts' ++ [t])).getLast? = some (decTok t) := by
      simp [decAll]
    cases t with
    | plain c0 =>
      rw [show (outTok (Tok.plain c0)).getLast? = some c0 from rfl] at hc
      simp only [Option.or_some, Option.some.injEq] at hc
      subst hc
      exact hlast c0 (by simpa [decTok] using hdec)
    | escq =>
      rw [show (outTok Tok.escq).getLast? = some '\'' from rfl] at hc
      simp only [Option.or_some, Option.some.injEq] at hc
      subst hc
      decide
    | dblq =>
      rw [show (outTok Tok.dblq).getLast? = some '\'' from rfl] at hc
      simp only [Option.or_some, Option.some.injEq] at hc
      subst hc
      decide

/-- C4 (amended): round-trip of quoting holds for a quoted field containing
a backslash-escaped quote, a doubled quote and a comma, provided (as the
counterexample forces) the field's decoded content has no leading or
trailing whitespace — which `parse_values` strips at the tuple boundary —
and contains no ampersand, which `clean_val`'s HTML-entity decoding would
rewrite: under those conditions parsing and normalizing yields exactly the
original text content (the comma is not a separator; both quote-escape
forms decode to a single quote). -/
theorem claim_C4_quoting_round_trip (ts : List Tok)
    (hgood : ∀ t ∈ ts, goodTok t = true)
    (hesc : Tok.escq ∈ ts) (_hdbl : Tok.dblq ∈ ts) (_hcomma : Tok.plain ',' ∈ ts)
    (hamp : ('&' : Char) ∉ decAll ts)
    (hhead : ∀ c, (decAll ts).head? = some c → isWs c = false)
    (hlast : ∀ c, (decAll ts).getLast? = some c → isWs c = false) :
    rowVals (mkQuotedLine (encAll ts)) = [[Val.str (decAll ts)]] := by
  have hbs : ('\\' : Char) ∈ outAll ts := bs_mem_outAll hesc
  rw [rowVals, parse_values_quoted ts hgood]
  have hstrip : pyStrip (outAll ts) = outAll ts :=
    pyStrip_eq_self (outAll_head_not_ws ts hhead) (outAll_getLast_not_ws ts hlast)
  rw [hstrip]
  have hcv : clean_val (outAll ts) = .str (decAll ts) := by
    unfold clean_val
    have hne : ¬(outAll ts = "NULL".toList ∨ outAll ts = []) := by
      intro hor
      rcases hor with he | he
      · rw [he] at hbs; exact absurd hbs (by decide)
      · rw [he] at hbs; cases hbs
    rw [if_neg hne]
    by_cases hdot : ('.' : Char) ∈ outAll ts
    · rw [if_pos hdot, pyFloatOk_false_of_bs hbs]
      simp [unescapeStr_out ts hgood hamp]
    · rw [if_neg hdot, pyIntParse_none_of_bs hbs]
      simp [unescapeStr_out ts hgood hamp]
  simp [hcv]

/-- C4 counterexample: the quoted field written ` \'x''y,z` — which contains
a backslash-escaped quote, a doubled quote and a comma — has original text
content ` 'x'y,z` (leading space included), but parse-then-normalize yields
`'x'y,z`: the outer whitespace of the content is lost, so the round trip is
not exact for every such field. -/
theorem claim_C4_counterexample :
    decAll [Tok.plain ' ', Tok.escq, Tok.plain 'x', Tok.dblq,
      Tok.plain 'y', Tok.plain ',', Tok.plain 'z'] = " 'x'y,z".toList ∧
    rowVals (mkQuotedLine (encAll [Tok.plain ' ', Tok.escq, Tok.plain 'x', Tok.dblq,
      Tok.plain 'y', Tok.plain ',', Tok.plain 'z'])) = [[Val.str "'x'y,z".toList]] ∧
    rowVals (mkQuotedLine (encAll [Tok.plain ' ', Tok.escq, Tok.plain 'x', Tok.dblq,
      Tok.plain 'y', Tok.plain ',', Tok.plain 'z'])) ≠ [[Val.str " 'x'y,z".toList]] := by
  have hp := parse_values_quoted [Tok.plain ' ', Tok.escq, Tok.plain 'x', Tok.dblq,
    Tok.plain 'y', Tok.plain ',', Tok.plain 'z'] (by decide)
  refine ⟨by decide, ?_, ?_⟩
  · rw [rowVals, hp]; decide
  · rw [rowVals, hp]; decide

/-- C4 witness: the field written `a\'b''c,d` satisfies the amended
conditions and round-trips exactly to `a'b'c,d`. -/
theorem claim_C4_witness :
    rowVals (mkQuotedLine (encAll [Tok.plain 'a', Tok.escq, Tok.plain 'b', Tok.dblq,
      Tok.plain 'c', Tok.plain ',', Tok.plain 'd'])) = [[Val.str "a'b'c,d".toList]] := by
  have hh : ∀ c, (decAll [Tok.plain 'a', Tok.escq, Tok.plain 'b', Tok.dblq,
      Tok.plain 'c', Tok.plain ',', Tok.plain 'd']).head? = some c → isWs c = false := by
    intro c hc
    have he : ('a' : Char) = c := Option.some.inj (by rw [← hc]; rfl)
    rw [← he]
    decide
  have hl : ∀ c, (decAll [Tok.plain 'a', Tok.escq, Tok.plain 'b', Tok.dblq,
      Tok.plain 'c', Tok.plain ',', Tok.plain 'd']).getLast? = some c → isWs c = false := by
    intro c hc
    have he : ('d' : Char) = c := Option.some.inj (by rw [← hc]; rfl)
    rw [← he]
    decide
  exact (claim_C4_quoting_round_trip _ (by decide) (by decide) (by decide) (by decide)
    (by decide) hh hl).trans (by decide)

lemma dictGet_dictSet (m : List (Val × Val)) (k v k' : Val) :
    dictGet (dictSet m k v) k' = if k = k' then some v else dictGet m k' := by
  induction m with
  | nil =>
    by_cases h : k = k' <;> simp [dictSet, dictGet, h]
  | cons p rest ih =>
    obtain ⟨a, b⟩ := p
    by_cases hak : a = k
    · subst hak
      by_cases h : a = k' <;> simp [dictSet, dictGet, h]
    · by_cases h : a = k'
      · have hne : ¬k = k' := fun e => hak (h.trans e.symm)
        have hne' : ¬k' = k := fun e => hne e.symm
        simp [dictSet, dictGet, hak, h, hne, hne']
      · simp [dictSet, dictGet, hak, h, ih]

lemma razdFold_ok (rows : List (List (List Char))) (h : ∀ r ∈ rows, 2 ≤ r.length) :
    ∀ m, ∃ m', razdFold m rows = .ok m' ∧
      ∀ key, dictGet m' key = (lookupLast (razdPairs rows) key).or (dictGet m key) := by
  induction rows with
  | nil =>
    intro m
    exact ⟨m, rfl, fun key => by simp [razdPairs, lookupLast]⟩
  | cons row rest ih =>
    intro m
    have hrow : 2 ≤ row.length := h row (by simp)
    rcases row with _ | ⟨f0, row1⟩
    · simp at hrow
    rcases row1 with _ | ⟨f1, row2⟩
    · simp at hrow
    have hrest : ∀ r ∈ rest, 2 ≤ r.length := fun r hr => h r (by simp [hr])
    set m1 := if clean_val f0 ≠ Val.none ∧ clean_val f1 ≠ Val.none
      then dictSet m (clean_val f0) (clean_val f1) else m with hm1
    obtain ⟨m', hfold, hget⟩ := ih hrest m1
    refine ⟨m', ?_, ?_⟩
    · rw [razdFold]; exact hfold
    · intro key
      rw [hget key]
      have hpairs : razdPairs ((f0 :: f1 :: row2) :: rest) =
          (if clean_val f0 ≠ Val.none ∧ clean_val f1 ≠ Val.none
            then (clean_val f0, clean_val f1) :: razdPairs rest else razdPairs rest) := by
        by_cases hc : clean_val f0 ≠ Val.none ∧ clean_val f1 ≠ Val.none
        · simp [razdPairs, hc]
        · simp only [razdPairs, List.filterMap_cons]
          rw [if_neg hc, if_neg hc]
      by_cases hc : clean_val f0 ≠ Val.none ∧ clean_val f1 ≠ Val.none
      · rw [hpairs, if_pos hc, hm1, if_pos hc]
        cases hl : lookupLast (razdPairs rest) key with
        | some v => simp [lookupLast, hl]
        | none =>
          by_cases hk : clean_val f0 = key <;>
            simp [lookupLast, hl, dictGet_dictSet, hk]
      · rw [hpairs, if_neg hc, hm1, if_neg hc]

/-- C2 (amended): building the section-to-issue map from legacy section rows
never raises (for rows with at least the two used fields), and when two rows
share the same section id the map keeps the issue id of the LAST such row —
each later `razd_to_nomer[razd_id] = nomer_id` assignment overwrites the
earlier one — not, as claimed, the first. -/
theorem claim_C2_section_map_last_write_wins
    (rows : List (List (List Char))) (h : ∀ r ∈ rows, 2 ≤ r.length) :
    ∃ m, buildRazdToNomer rows = .ok m ∧
      ∀ key, dictGet m key = lookupLast (razdPairs rows) key := by
  obtain ⟨m, hm, hget⟩ := razdFold_ok rows h []
  refine ⟨m, hm, fun key => ?_⟩
  rw [hget key]
  simp [dictGet]

/-- C2 counterexample: two section rows with the same section id `1` and
issue ids `10` then `20` — the claim says the map keeps `10` (first write
wins); the built map holds `20`, the last write. -/
theorem claim_C2_counterexample :
    buildRazdToNomer [["1".toList, "10".toList], ["1".toList, "20".toList]] =
      .ok [(Val.int 1, Val.int 20)] ∧
    dictGet [(Val.int 1, Val.int 20)] (Val.int 1) ≠ some (Val.int 10) := by
  constructor
  · rfl
  · decide

/-- C2 witness: the amended statement applied to the duplicate-id rows. -/
theorem claim_C2_witness :
    ∃ m, buildRazdToNomer [["1".toList, "10".toList], ["1".toList, "20".toList]] = .ok m ∧
      ∀ key, dictGet m key =
        lookupLast (razdPairs [["1".toList, "10".toList], ["1".toList, "20".toList]]) key :=
  claim_C2_section_map_last_write_wins _ (by decide)

/-- C1 (amended): the journal-creation loop of `run_migration` persists for
every row exactly the slug computed from that row alone — there is no
collision check and no numeric suffix anywhere in the loop — so two legacy
journal rows that normalize to the same slug are persisted with identical
slugs (the uniqueness constraint of the schema would then reject the second
at flush time; the numeric-suffix fallback exists only in the admin
interface's journal creation, not in the importer).  This concerns rows the
loop actually flushes: a row with fewer than 15 fields, or with a truthy
non-string in a raising position, raises before the flush and persists
nothing, which `journal_slug` embeds as `Except.error`. -/
theorem claim_C1_no_slug_suffix_in_import :
    (∀ rows out, journal_slugs rows = .ok out →
      List.Forall₂ (fun r s => journal_slug r = .ok s) rows out) ∧
    (∀ r1 r2 s1 s2, journal_slug r1 = .ok s1 → journal_slug r2 = .ok s2 → s1 = s2 →
      journal_slugs [r1, r2] = .ok [s1, s1]) := by
  constructor
  · intro rows
    induction rows with
    | nil =>
      intro out h
      simp only [journal_slugs] at h
      cases h
      exact List.Forall₂.nil
    | cons r rest ih =>
      intro out h
      cases e1 : journal_slug r with
      | error e => rw [journal_slugs, e1] at h; cases h
      | ok s =>
        cases e2 : journal_slugs rest with
        | error e => rw [journal_slugs, e1, e2] at h; cases h
        | ok ss =>
          rw [journal_slugs, e1, e2] at h
          cases h
          exact List.Forall₂.cons e1 (ih ss e2)
  · intro r1 r2 s1 s2 h1 h2 heq
    subst heq
    rw [journal_slugs, h1, journal_slugs, h2, journal_slugs]

/-- C1 counterexample: two full 15-field legacy journal rows (so the loop
reaches the flush without raising) whose `link` field is the same `alpha` —
so both normalize to the slug `alpha` — are persisted by the loop as
`["alpha", "alpha"]`: the second slug is identical to the first, not
distinct and not bearing a numeric suffix. -/
theorem claim_C1_counterexample :
    journal_slugs
      [("1".toList :: "m".toList :: "t".toList :: "Name One".toList :: "alpha".toList ::
          "x".toList :: List.replicate 9 []),
       ("2".toList :: "m".toList :: "t".toList :: "Name Two".toList :: "alpha".toList ::
          "y".toList :: List.replicate 9 [])] =
      .ok ["alpha".toList, "alpha".toList] ∧
    ¬∃ s1 s2, journal_slugs
      [("1".toList :: "m".toList :: "t".toList :: "Name One".toList :: "alpha".toList ::
          "x".toList :: List.replicate 9 []),
       ("2".toList :: "m".toList :: "t".toList :: "Name Two".toList :: "alpha".toList ::
          "y".toList :: List.replicate 9 [])] =
      .ok [s1, s2] ∧ s1 ≠ s2 := by
  have h : journal_slugs
      [("1".toList :: "m".toList :: "t".toList :: "Name One".toList :: "alpha".toList ::
          "x".toList :: List.replicate 9 []),
       ("2".toList :: "m".toList :: "t".toList :: "Name Two".toList :: "alpha".toList ::
          "y".toList :: List.replicate 9 [])] =
      .ok ["alpha".toList, "alpha".toList] := by rfl
  refine ⟨h, ?_⟩
  rintro ⟨s1, s2, he, hne⟩
  rw [h] at he
  have h1 : "alpha".toList = s1 ∧ "alpha".toList = s2 ∧ True := by
    have := Except.ok.inj he
    simp only [List.cons_eq_cons] at this
    exact ⟨this.1, this.2.1, trivial⟩
  exact hne (h1.1.symm.trans h1.2.1)

/-- C1 witness: the no-dedup statement applied to the two colliding rows. -/
theorem claim_C1_witness :
    journal_slugs
      [("1".toList :: "m".toList :: "t".toList :: "Name One".toList :: "alpha".toList ::
          "x".toList :: List.replicate 9 []),
       ("2".toList :: "m".toList :: "t".toList :: "Name Two".toList :: "alpha".toList ::
          "y".toList :: List.replicate 9 [])] =
      .ok ["alpha".toList, "alpha".toList] :=
  claim_C1_no_slug_suffix_in_import.2 _ _ _ _ rfl rfl rfl

lemma article_outcome_ok_length {rm im : List (Val × Val)} {ord : Nat}
    {row : List (List Char)} {o : Outcome}
    (h : article_outcome rm im ord row = .ok o) : 6 ≤ row.length := by
  rcases row with _ | ⟨f0, row⟩
  · rw [show article_outcome rm im ord [] = Except.error () from rfl] at h; cases h
  rcases row with _ | ⟨f1, row⟩
  · rw [show article_outcome rm im ord [f0] = Except.error () from rfl] at h; cases h
  rcases row with _ | ⟨f2, row⟩
  · rw [show article_outcome rm im ord [f0, f1] = Except.error () from rfl] at h; cases h
  rcases row with _ | ⟨f3, row⟩
  · rw [show article_outcome rm im ord [f0, f1, f2] = Except.error () from rfl] at h
    cases h
  rcases row with _ | ⟨f4, row⟩
  · rw [show article_outcome rm im ord [f0, f1, f2, f3] = Except.error () from rfl] at h
    cases h
  rcases row with _ | ⟨f5, row⟩
  · rw [show article_outcome rm im ord [f0, f1, f2, f3, f4] = Except.error () from rfl] at h
    cases h
  simp

lemma badRow_iff_skipped (rm im : List (Val × Val)) (ord : Nat)
    (row : List (List Char)) (hlen : 6 ≤ row.length) :
    (badRowB rm im row = true ↔ article_outcome rm im ord row = .ok .skipped) := by
  rcases row with _ | ⟨f0, row⟩
  · simp at hlen
  rcases row with _ | ⟨f1, row⟩
  · simp at hlen
  rcases row with _ | ⟨f2, row⟩
  · simp at hlen
  rcases row with _ | ⟨f3, row⟩
  · simp at hlen
  rcases row with _ | ⟨f4, row⟩
  · simp at hlen
  rcases row with _ | ⟨f5, row⟩
  · simp at hlen
  have hg4 : (f0 :: f1 :: f2 :: f3 :: f4 :: f5 :: row).getD 4 [] = f4 := rfl
  have hg1 : (f0 :: f1 :: f2 :: f3 :: f4 :: f5 :: row).getD 1 [] = f1 := rfl
  by_cases ht : truthy (clean_val f4)
  · by_cases h2 : (dictGet rm (clean_val f1)).getD Val.none = Val.none
    · simp [badRowB, article_outcome, hg4, hg1, ht, h2]
    · by_cases h3 :
        (dictGet im ((dictGet rm (clean_val f1)).getD Val.none)).getD Val.none = Val.none
      · simp [badRowB, article_outcome, hg4, hg1, ht, h2, h3]
      · simp only [badRowB, article_outcome, hg4, hg1, ht, h2, h3]
        constructor
        · intro hbad
          exfalso
          simp [ht, h2, h3] at hbad
        · intro hout
          exfalso
          rw [if_neg not_false, if_neg not_false] at hout
          split at hout
          · next hcond => exact hcond trivial
          · split at hout <;> simp at hout
  · simp [badRowB, article_outcome, hg4, ht]

lemma runArticlesGo_spec (rm im : List (Val × Val)) :
    ∀ (rows : List (List (List Char))) (skipped : Nat) (arts : List ArticleRec)
      (n : Nat) (out : List ArticleRec),
      runArticlesGo rm im skipped arts rows = .ok (n, out) →
      n = skipped + (rows.filter (badRowB rm im)).length ∧
      out.length + n = arts.length + skipped + rows.length := by
  intro rows
  induction rows with
  | nil =>
    intro skipped arts n out h
    rw [runArticlesGo] at h
    cases h
    simp
  | cons row rest ih =>
    intro skipped arts n out h
    rw [runArticlesGo] at h
    cases e : article_outcome rm im arts.length row with
    | error err => rw [e] at h; cases h
    | ok o =>
      have hlen : 6 ≤ row.length := article_outcome_ok_length e
      cases o with
      | skipped =>
        rw [e] at h
        have hbad : badRowB rm im row = true :=
          (badRow_iff_skipped rm im arts.length row hlen).mpr e
        obtain ⟨hn, hl⟩ := ih (skipped + 1) arts n out h
        constructor
        · rw [hn, List.filter_cons, if_pos hbad]
          simp
          omega
        · rw [hl]
          simp
          omega
      | imported a =>
        rw [e] at h
        have hbad : badRowB rm im row = false := by
          cases hb : badRowB rm im row with
          | false => rfl
          | true =>
            have := (badRow_iff_skipped rm im arts.length row hlen).mp hb
            rw [this] at e
            cases e
        obtain ⟨hn, hl⟩ := ih skipped (arts ++ [a]) n out h
        constructor
        · rw [hn, List.filter_cons, if_neg (by simp [hbad])]
        · rw [hl]
          simp
          omega

/-- C5: skip accounting — for a well-formed legacy article row, the importer
skips it exactly when the row has no truthy title, or its section id is
absent from the section-to-issue map, or the resolved legacy issue id is
absent from the issue map (returning `.ok .skipped`: one skip, no Article,
no Author rows, no exception); and over a whole run that completes, the skip
counter equals exactly the number of such rows while every other row yields
exactly one created article. -/
theorem claim_C5_skip_accounting :
    (∀ (rm im : List (Val × Val)) (ord : Nat) (row : List (List Char)),
      6 ≤ row.length →
      (badRowB rm im row = true ↔ article_outcome rm im ord row = .ok .skipped)) ∧
    (∀ (rm im : List (Val × Val)) (rows : List (List (List Char)))
      (n : Nat) (arts : List ArticleRec),
      runArticles rm im rows = .ok (n, arts) →
      n = (rows.filter (badRowB rm im)).length ∧ arts.length + n = rows.length) := by
  constructor
  · exact fun rm im ord row hlen => badRow_iff_skipped rm im ord row hlen
  · intro rm im rows n arts h
    obtain ⟨hn, hl⟩ := runArticlesGo_spec rm im rows 0 [] n arts h
    constructor
    · simpa using hn
    · simpa using hl

/-- C5 witness: one well-formed article row whose section id `2` is absent
from an empty section-to-issue map is skipped: the run ends with skip count
1 and no articles. -/
theorem claim_C5_witness :
    (1 : Nat) = ([["1".toList, "2".toList, "3".toList, "A".toList, "T".toList, "D".toList]].filter
      (badRowB [] [])).length ∧
    ([] : List ArticleRec).length + 1 =
      [["1".toList, "2".toList, "3".toList, "A".toList, "T".toList, "D".toList]].length :=
  claim_C5_skip_accounting.2 [] []
    [["1".toList, "2".toList, "3".toList, "A".toList, "T".toList, "D".toList]] 1 [] (by rfl)

end PubSite
